import Mathlib

/-!
# consul-cfg: flattening a settings tree into Consul KV pairs and consul-template directives

A shallow embedding of `src/kv.go`, `src/tmpl.go` and `src/common.go`, followed by the
properties of the traversal, of the leaf encoding and of the directive escaping scheme.

Conventions of the embedding.

* A Go `map[string]interface{}` is a list of entries *in the order in which one run of
  `for k, v := range inp` visits them*.  Go does not fix that order, so every statement about
  a tree is a statement about one iteration order of it.
* A Go `string` is a Lean `String` (a sequence of Unicode scalar values, i.e. valid UTF-8).
* A number leaf is an integer (`int`, `int64`) or a finite `float64`.  A `float64` is given by
  the decimal digits and exponent that identify it; `encoding/json` prints it from the shortest
  such digits.  Binary rounding is not modelled: a text is read back as the decimal it writes.
* `errLog.Fatalf` and a runtime panic both end the process; the functions return
  `Except Abort _` and nothing is produced by an aborted run.
-/

namespace ConsulCfg

/-! ## Data model -/

/-- Values of Go type `interface{}` as the configuration parsers produce them. -/
inductive Value where
  /-- the nil interface value (JSON `null`, YAML `~`) -/
  | null
  | bool (b : Bool)
  | num (n : Int)
  /-- a finite `float64`, given by the decimal `strconv` prints for it: the number
      `m * 10^e`, negated when `neg` is set (`neg` with `m = 0` is the negative zero) -/
  | float (neg : Bool) (m : Nat) (e : Int)
  | str (s : String)
  /-- a `[]interface{}` -/
  | list (xs : List Value)
  /-- a `map[string]interface{}`, entries in iteration order -/
  | map (kvs : List (String × Value))
  /-- a value of kind Map that is not a `map[string]interface{}`
      (`map[interface{}]interface{}`, as YAML decoding produces inside lists) -/
  | imap
  deriving Repr

/-- A settings tree: the entries of a `map[string]interface{}` in iteration order. -/
abbrev Tree := List (String × Value)

/-- Modelled from the spec: the declaration of `consulKVPair` is not among the sources; the
spec gives it as `{Key: Path (slash form), Value: string (base64 ...), Flags: integer}`. -/
structure consulKVPair where
  Flags : Int
  Key : String
  Value : String
  deriving DecidableEq, Repr

/-- The ways a run ends without a result. -/
inductive Abort where
  /-- `reflect.TypeOf(v).Kind()` on a nil interface: nil pointer dereference -/
  | nilDeref
  /-- `v.(map[string]interface{})` not ok: `errLog.Fatalf` -/
  | notStringMap
  /-- `jEncoder.Encode(v)` returned an error: `errLog.Fatalf` -/
  | marshal
  deriving DecidableEq, Repr

instance instDecidableEqExcept {ε α : Type} [DecidableEq ε] [DecidableEq α] :
    DecidableEq (Except ε α) := fun x y =>
  match x, y with
  | .ok a, .ok b =>
    if h : a = b then isTrue (by rw [h]) else isFalse (by intro h'; cases h'; exact h rfl)
  | .error a, .error b =>
    if h : a = b then isTrue (by rw [h]) else isFalse (by intro h'; cases h'; exact h rfl)
  | .ok _, .error _ => isFalse (by intro h; cases h)
  | .error _, .ok _ => isFalse (by intro h; cases h)

/-! ## `encoding/json` with `SetEscapeHTML(false)` -/

/-- Lower-case hexadecimal digit, `"0123456789abcdef"[n]`. -/
def hexDigit (n : Nat) : Char :=
  if n < 10 then Char.ofNat (48 + n) else Char.ofNat (87 + n)

/-- One character of a JSON string literal.  With HTML escaping off only the quote, the
backslash, the control characters and U+2028/U+2029 are escaped; `&`, `<`, `>` are not. -/
def escapeChar (c : Char) : List Char :=
  if c = '"' then ['\\', '"']
  else if c = '\\' then ['\\', '\\']
  else if c = '\n' then ['\\', 'n']
  else if c = '\r' then ['\\', 'r']
  else if c = '\t' then ['\\', 't']
  else if c.toNat < 32 then
    ['\\', 'u', '0', '0', hexDigit (c.toNat / 16), hexDigit (c.toNat % 16)]
  else if c.toNat = 0x2028 then ['\\', 'u', '2', '0', '2', '8']
  else if c.toNat = 0x2029 then ['\\', 'u', '2', '0', '2', '9']
  else [c]

/-- Body of a JSON string literal (between the quotes). -/
def escapeChars : List Char → List Char
  | [] => []
  | c :: cs => escapeChar c ++ escapeChars cs

/-- A JSON string literal. -/
def encodeString (s : String) : List Char :=
  '"' :: (escapeChars s.data ++ ['"'])

/-- Decimal digits of `n`, most significant first, pushed in front of `acc`. -/
def decimalAux : Nat → Nat → List Char → List Char
  | 0, _, acc => acc
  | fuel + 1, n, acc =>
    if n < 10 then Char.ofNat (48 + n) :: acc
    else decimalAux fuel (n / 10) (Char.ofNat (48 + n % 10) :: acc)

/-- `strconv.Itoa` on a natural number. -/
def decimal (n : Nat) : List Char := decimalAux (n + 1) n []

/-- `strconv.FormatInt(n, 10)`. -/
def encodeInt : Int → List Char
  | Int.ofNat n => decimal n
  | Int.negSucc n => '-' :: decimal (n + 1)

/-- Move zeros at the end of the digits `m` into the exponent, at most `fuel` times; zero has
exponent zero. -/
def normalize : Nat → Nat → Int → Nat × Int
  | 0, m, e => (m, e)
  | fuel + 1, m, e =>
    if m = 0 then (0, 0)
    else if m % 10 = 0 then normalize fuel (m / 10) (e + 1)
    else (m, e)

/-- The shortest digits of the number `m * 10^e`, with their exponent: the digits `strconv`
formats a `float64` from end in no zero. -/
def shortest (m : Nat) (e : Int) : Nat × Int := normalize (m + 1) m e

/-- The text of a finite `float64` in `encoding/json`: `strconv.AppendFloat` with the shortest
digits, in the format `e` when the number is below `1e-6` or at least `1e21` and in the format
`f` otherwise, the exponent of the format `e` written without a leading zero. -/
def encodeFloat (neg : Bool) (m : Nat) (e : Int) : List Char :=
  let m0 := (shortest m e).1
  let e0 := (shortest m e).2
  let sign := if neg then ['-'] else []
  if m0 = 0 then sign ++ ['0']
  else
    let ds := decimal m0
    let dp : Int := (ds.length : Int) + e0
    if dp ≤ -6 ∨ 22 ≤ dp then
      sign ++ ds.take 1 ++ (if ds.drop 1 = [] then [] else '.' :: ds.drop 1)
        ++ 'e' :: (if dp - 1 < 0 then '-' else '+') :: decimal (dp - 1).natAbs
    else if dp ≤ 0 then sign ++ '0' :: '.' :: (List.replicate (-dp).toNat '0' ++ ds)
    else if dp < ds.length then sign ++ ds.take dp.toNat ++ '.' :: ds.drop dp.toNat
    else sign ++ ds ++ List.replicate (dp - ds.length).toNat '0'

/-- Insert an entry into a list of entries sorted by key. -/
def insertEntry {α : Type} (k : String) (a : α) : List (String × α) → List (String × α)
  | [] => [(k, a)]
  | (k', a') :: rest =>
    if k < k' then (k, a) :: (k', a') :: rest else (k', a') :: insertEntry k a rest

/-- Entries ordered by key, as `encoding/json` orders the keys of a map before writing it. -/
def sortEntries {α : Type} : List (String × α) → List (String × α)
  | [] => []
  | (k, a) :: rest => insertEntry k a (sortEntries rest)

/-- Join already encoded elements with commas. -/
def commaJoin : List (List Char) → List Char
  | [] => []
  | [x] => x
  | x :: y :: rest => x ++ ',' :: commaJoin (y :: rest)

mutual
/-- The text `json.Marshal` (HTML escaping off) writes for a value, or `none` where it
reports `json: unsupported type`. -/
def marshal : Value → Option (List Char)
  | .null => some ['n', 'u', 'l', 'l']
  | .bool true => some ['t', 'r', 'u', 'e']
  | .bool false => some ['f', 'a', 'l', 's', 'e']
  | .num n => some (encodeInt n)
  | .float neg m e => some (encodeFloat neg m e)
  | .str s => some (encodeString s)
  | .list xs => (marshalList xs).map fun parts => '[' :: (commaJoin parts ++ [']'])
  | .map kvs =>
    (marshalEntries kvs).map fun parts =>
      '{' :: (commaJoin ((sortEntries parts).map fun p => encodeString p.1 ++ ':' :: p.2) ++ ['}'])
  | .imap => none
/-- The encoded elements of a list. -/
def marshalList : List Value → Option (List (List Char))
  | [] => some []
  | v :: vs =>
    match marshal v, marshalList vs with
    | some e, some es => some (e :: es)
    | _, _ => none
/-- The encoded values of the entries of a map, with their keys. -/
def marshalEntries : List (String × Value) → Option (List (String × List Char))
  | [] => some []
  | (k, v) :: rest =>
    match marshal v, marshalEntries rest with
    | some e, some es => some ((k, e) :: es)
    | _, _ => none
end

/-- The buffer after `jEncoder.Encode(v)`: the JSON text followed by a newline. -/
def encoderEncode (v : Value) : Option (List Char) :=
  (marshal v).map fun e => e ++ ['\n']

/-- `strings.TrimSuffix(s, suffix)`. -/
def trimSuffix (s suffix : List Char) : List Char :=
  if suffix.isSuffixOf s then s.take (s.length - suffix.length) else s

/-! ## `encoding/base64`, `StdEncoding` -/

/-- UTF-8 bytes of a character. -/
def utf8Char (c : Char) : List Nat :=
  let n := c.toNat
  if n < 0x80 then [n]
  else if n < 0x800 then [0xC0 + n / 64, 0x80 + n % 64]
  else if n < 0x10000 then [0xE0 + n / 4096, 0x80 + n / 64 % 64, 0x80 + n % 64]
  else [0xF0 + n / 262144, 0x80 + n / 4096 % 64, 0x80 + n / 64 % 64, 0x80 + n % 64]

/-- The bytes of a Go string, `[]byte(s)`. -/
def utf8Bytes : List Char → List Nat
  | [] => []
  | c :: cs => utf8Char c ++ utf8Bytes cs

/-- The base64 digit of a 6-bit value in the standard alphabet. -/
def b64Char (n : Nat) : Char :=
  if n < 26 then Char.ofNat (65 + n)
  else if n < 52 then Char.ofNat (71 + n)
  else if n < 62 then Char.ofNat (n - 4)
  else if n = 62 then '+'
  else '/'

/-- `base64.StdEncoding.EncodeToString` on a byte sequence, with `=` padding. -/
def b64Encode : List Nat → List Char
  | [] => []
  | [a] => [b64Char (a / 4), b64Char (a % 4 * 16), '=', '=']
  | [a, b] => [b64Char (a / 4), b64Char (a % 4 * 16 + b / 16), b64Char (b % 16 * 4), '=']
  | a :: b :: c :: rest =>
    b64Char (a / 4) :: b64Char (a % 4 * 16 + b / 16) :: b64Char (b % 16 * 4 + c / 64)
      :: b64Char (c % 64) :: b64Encode rest

/-! ## `kv.go` -/

/-- The `newPrefix` of `mapToKVPairs` and `updateValue`: the key itself under an empty
prefix, `prefix + "/" + k` otherwise. -/
def newPrefix (pfx k : String) : String :=
  if pfx = "" then k else pfx ++ "/" ++ k

/-- The non-Map branch of `mapToKVPairs`: JSON-encode with HTML escaping off, trim the
trailing newline, base64-encode. -/
def encodeLeaf (v : Value) : Except Abort (List Char) :=
  match encoderEncode v with
  | none => .error .marshal
  | some buf => .ok (trimSuffix buf ['\n'])

/-- The pair appended for a leaf. -/
def leafPair (key : String) (trimmed : List Char) : consulKVPair :=
  { Flags := 0, Key := key, Value := String.mk (b64Encode (utf8Bytes trimmed)) }

mutual
/-- The body of the loop of `mapToKVPairs` once `newPrefix` is known: the branch on the kind
of the value `v`. -/
def kvVisit (ckv : List consulKVPair) (newPfx : String) :
    Value → Except Abort (List consulKVPair)
  | .null => .error .nilDeref
  | .imap => .error .notStringMap
  | .map m => mapToKVPairs ckv newPfx m
  | leaf =>
    match encodeLeaf leaf with
    | .error e => .error e
    | .ok trimmed => .ok (ckv ++ [leafPair newPfx trimmed])
/-- Recursively traverse the map and append a KV pair for every value that cannot be
traversed further.  `ckv` is the output slice, threaded through the loop. -/
def mapToKVPairs (ckv : List consulKVPair) (pfx : String) :
    Tree → Except Abort (List consulKVPair)
  | [] => .ok ckv
  | (k, v) :: rest =>
    match kvVisit ckv (newPrefix pfx k) v with
    | .error e => .error e
    | .ok ckv' => mapToKVPairs ckv' pfx rest
end

/-! ## `tmpl.go` -/

/-- The `newKey` of `updateValue`: the key itself under an empty address, `key + "." + k`
otherwise. -/
def newKey (key k : String) : String :=
  if key = "" then k else key ++ "." ++ k

/-- The directive with its sentinels, i.e. `fmt.Sprintf` with the format
`{{ keyOrDefault {{{%v}}} {{{%v}}} }}` applied to the slash path and the encoded value. -/
def directive (newPfx : String) (out : List Char) : String :=
  "\x7b\x7b keyOrDefault \x7b\x7b\x7b" ++ newPfx ++ "\x7d\x7d\x7d \x7b\x7b\x7b"
    ++ String.mk out ++ "\x7d\x7d\x7d \x7d\x7d"

/-- One call `viper.Set(key, value)`. -/
structure SetCall where
  key : String
  value : String
  deriving DecidableEq, Repr

mutual
/-- The body of the loop of `updateValue` once `newPrefix` and `newKey` are known. -/
def tmplVisit (sets : List SetCall) (newPfx newK : String) :
    Value → Except Abort (List SetCall)
  | .null => .error .nilDeref
  | .imap => .error .notStringMap
  | .map m => updateValue sets newPfx newK m
  | leaf =>
    match encodeLeaf leaf with
    | .error e => .error e
    | .ok out => .ok (sets ++ [⟨newK, directive newPfx out⟩])
/-- Recursively replace the value of every key by a consul-template `keyOrDefault`
directive.  The effect on the global viper instance is the sequence of `viper.Set` calls,
threaded through the loop as `sets`. -/
def updateValue (sets : List SetCall) (pfx key : String) :
    Tree → Except Abort (List SetCall)
  | [] => .ok sets
  | (k, v) :: rest =>
    match tmplVisit sets (newPrefix pfx k) (newKey key k) v with
    | .error e => .error e
    | .ok sets' => updateValue sets' pfx key rest
end

/-- The scan of `strings.Replace(s, old, new, -1)` for a non-empty `old`: leftmost
occurrences, not overlapping.  `skip` counts the characters of a matched occurrence that
are still to be passed over. -/
def replaceFrom (old new : List Char) : Nat → List Char → List Char
  | _, [] => []
  | skip + 1, _ :: cs => replaceFrom old new skip cs
  | 0, c :: cs =>
    if old.isPrefixOf (c :: cs) then new ++ replaceFrom old new (old.length - 1) cs
    else c :: replaceFrom old new 0 cs

/-- `strings.Replace(s, old, new, -1)`, `old` non-empty. -/
def stringsReplace (s old new : String) : String :=
  String.mk (replaceFrom old.data new.data 0 s.data)

/-- The post-processing of `runTmplCmd`: the four replacements, in the order written. -/
def tmplReplace (out : String) : String :=
  let out := stringsReplace out "\"\x7b\x7b" "\x7b\x7b"
  let out := stringsReplace out "\x7d\x7d\"" "\x7d\x7d"
  let out := stringsReplace out "\x7b\x7b\x7b" "\""
  stringsReplace out "\x7d\x7d\x7d" "\""

/-- The serializers `mapToConfigString` calls, which belong to other packages.  Each takes
the settings and gives the text or an error. -/
structure Serializers where
  /-- `json.MarshalIndent(cMap, "", "  ")` -/
  jsonIndent : Tree → Except String String
  /-- `json.Marshal`, `hcl.Parse`, `printer.Fprint` -/
  hcl : Tree → Except String String
  /-- `properties.NewProperties`, `Set` for every key, `WriteComment` -/
  properties : Tree → Except String String
  /-- `toml.TreeFromMap(cMap)` and `String()` -/
  toml : Tree → Except String String
  /-- `yaml.Marshal(cMap)` -/
  yaml : Tree → Except String String

/-- The pair `(string, error)` a serializer branch returns: the text and no error, or the
empty string and the error. -/
def returned : Except String String → String × Option String
  | .ok text => (text, none)
  | .error err => ("", some err)

/-- Convert the settings `cMap` (`viper.AllSettings()`) to the given config file type. -/
def mapToConfigString (lib : Serializers) (cMap : Tree) (configType : String) :
    String × Option String :=
  if configType = "json" then returned (lib.jsonIndent cMap)
  else if configType = "hcl" then returned (lib.hcl cMap)
  else if configType = "prop" ∨ configType = "props" ∨ configType = "properties" then
    returned (lib.properties cMap)
  else if configType = "toml" then returned (lib.toml cMap)
  else if configType = "yaml" ∨ configType = "yml" then returned (lib.yaml cMap)
  else ("", none)

/-! ## `common.go` -/

/-- Check if the given input format is supported. -/
def isValidInputFormat (format : String) : List String → Bool
  | [] => false
  | f :: rest => if f = format then true else isValidInputFormat format rest

/-- Convert array of string to string. -/
def formatsToString (formats : List String) : String :=
  String.intercalate ", " formats

/-! ## Vocabulary of the properties -/

mutual
/-- The leaves below a value, each with the map keys that lead to it. -/
def leavesV : Value → List (List String × Value)
  | .map m => leaves m
  | v => [([], v)]
/-- The leaves of a tree in traversal order, each with its key path `k1, ..., kn`.  A leaf is
any value that is not a `map[string]interface{}`; a list is one leaf. -/
def leaves : Tree → List (List String × Value)
  | [] => []
  | (k, v) :: rest => (leavesV v).map (fun p => (k :: p.1, p.2)) ++ leaves rest
end

/-- Number of leaves of a tree. -/
def leafCount (t : Tree) : Nat := (leaves t).length

/-- A leaf the traversal can handle: it has a dynamic type, it is not a map of another key
type, and `encoding/json` can write it. -/
def encodable : Value → Bool
  | .null => false
  | .imap => false
  | v => (marshal v).isSome

/-- Every leaf of the tree can be handled. -/
def walkable (t : Tree) : Bool := (leaves t).all fun p => encodable p.2

/-- The JSON text kept for a leaf (the encoder output without its newline). -/
def leafText (v : Value) : List Char := (marshal v).getD []

/-- The slash path the loop builds from a prefix and the keys on the way to a leaf. -/
def slashPath (pfx : String) (ks : List String) : String := ks.foldl newPrefix pfx

/-- The dot address the loop builds from an address and the keys on the way to a leaf. -/
def dotPath (key : String) (ks : List String) : String := ks.foldl newKey key

/-- The pair a completed run holds for a leaf reached under prefix `pfx`. -/
def pairOf (pfx : String) (p : List String × Value) : consulKVPair :=
  leafPair (slashPath pfx p.1) (leafText p.2)

/-- The `viper.Set` call a completed run makes for a leaf reached under prefix `pfx` and
address `key`. -/
def callOf (pfx key : String) (p : List String × Value) : SetCall :=
  ⟨dotPath key p.1, directive (slashPath pfx p.1) (leafText p.2)⟩

/-- Two iteration orders of the same tree: the entries of a map, at any depth of the
traversal, may come in another order; keys and leaf values are the same. -/
inductive SameTree : Tree → Tree → Prop
  | nil : SameTree [] []
  | cons (k : String) (v : Value) {t t' : Tree} :
      SameTree t t' → SameTree ((k, v) :: t) ((k, v) :: t')
  | consMap (k : String) {m m' t t' : Tree} :
      SameTree m m' → SameTree t t' → SameTree ((k, .map m) :: t) ((k, .map m') :: t')
  | swap (a b : String × Value) (t : Tree) : SameTree (a :: b :: t) (b :: a :: t)
  | trans {t₁ t₂ t₃ : Tree} : SameTree t₁ t₂ → SameTree t₂ t₃ → SameTree t₁ t₃

/-- The four replacements as one function on character lists. -/
def replace4 (s : List Char) : List Char :=
  replaceFrom ['}', '}', '}'] ['"'] 0
    (replaceFrom ['{', '{', '{'] ['"'] 0
      (replaceFrom ['}', '}', '"'] ['}', '}'] 0
        (replaceFrom ['"', '{', '{'] ['{', '{'] 0 s)))

/-- The 6-bit value of a base64 digit of the standard alphabet. -/
def b64Val (c : Char) : Option Nat :=
  let n := c.toNat
  if 65 ≤ n ∧ n ≤ 90 then some (n - 65)
  else if 97 ≤ n ∧ n ≤ 122 then some (n - 71)
  else if 48 ≤ n ∧ n ≤ 57 then some (n + 4)
  else if n = 43 then some 62
  else if n = 47 then some 63
  else none

/-- `base64.StdEncoding.DecodeString`: groups of four digits, `=` padding in the last group. -/
def b64Decode : List Char → Option (List Nat)
  | [] => some []
  | c0 :: c1 :: c2 :: c3 :: rest =>
    match b64Val c0, b64Val c1 with
    | some a, some b =>
      if c2 = '=' then
        if c3 = '=' ∧ rest = [] then some [a * 4 + b / 16] else none
      else
        match b64Val c2 with
        | none => none
        | some c =>
          if c3 = '=' then
            if rest = [] then some [a * 4 + b / 16, b % 16 * 16 + c / 4] else none
          else
            match b64Val c3, b64Decode rest with
            | some d, some tail =>
              some ((a * 4 + b / 16) :: (b % 16 * 16 + c / 4) :: (c % 4 * 64 + d) :: tail)
            | _, _ => none
    | _, _ => none
  | _ => none

/-- The first character of a well-formed UTF-8 byte sequence and the bytes after it. -/
def utf8Next : List Nat → Option (Char × List Nat)
  | [] => none
  | b0 :: rest =>
    if b0 < 0x80 then some (Char.ofNat b0, rest)
    else if b0 < 0xE0 then
      match rest with
      | b1 :: rest => some (Char.ofNat ((b0 - 0xC0) * 64 + (b1 - 0x80)), rest)
      | _ => none
    else if b0 < 0xF0 then
      match rest with
      | b1 :: b2 :: rest =>
        some (Char.ofNat ((b0 - 0xE0) * 4096 + (b1 - 0x80) * 64 + (b2 - 0x80)), rest)
      | _ => none
    else
      match rest with
      | b1 :: b2 :: b3 :: rest =>
        some (Char.ofNat ((b0 - 0xF0) * 262144 + (b1 - 0x80) * 4096 + (b2 - 0x80) * 64
          + (b3 - 0x80)), rest)
      | _ => none

/-- Decoding of at most `fuel` characters of well-formed UTF-8. -/
def utf8DecodeAux : Nat → List Nat → Option (List Char)
  | _, [] => some []
  | 0, _ :: _ => none
  | fuel + 1, b :: bs =>
    match utf8Next (b :: bs) with
    | none => none
    | some (c, rest) => (utf8DecodeAux fuel rest).map (c :: ·)

/-- The characters of a well-formed UTF-8 byte sequence, `string(bytes)`. -/
def utf8Decode (bs : List Nat) : Option (List Char) := utf8DecodeAux bs.length bs

/-- JSON insignificant whitespace. -/
def isWs (c : Char) : Bool := c = ' ' || c = '\t' || c = '\n' || c = '\r'

/-- Drop leading whitespace. -/
def skipWs : List Char → List Char
  | [] => []
  | c :: cs => if isWs c then skipWs cs else c :: cs

/-- Value of a hexadecimal digit. -/
def hexVal (c : Char) : Option Nat :=
  let n := c.toNat
  if 48 ≤ n ∧ n ≤ 57 then some (n - 48)
  else if 97 ≤ n ∧ n ≤ 102 then some (n - 87)
  else if 65 ≤ n ∧ n ≤ 70 then some (n - 55)
  else none

/-- The character of a two-character escape `\e`. -/
def unescape (e : Char) : Option Char :=
  if e = '"' then some '"'
  else if e = '\\' then some '\\'
  else if e = '/' then some '/'
  else if e = 'b' then some (Char.ofNat 8)
  else if e = 'f' then some (Char.ofNat 12)
  else if e = 'n' then some '\n'
  else if e = 'r' then some '\r'
  else if e = 't' then some '\t'
  else none

/-- One step inside a JSON string literal: `(none, rest)` at the closing quote, otherwise the
next character, an escape sequence taken as the character it denotes (a surrogate written as
`\uXXXX` is taken as U+FFFD). -/
def strNext : List Char → Option (Option Char × List Char)
  | [] => none
  | c :: rest =>
    if c = '"' then some (none, rest)
    else if c = '\\' then
      match rest with
      | [] => none
      | e :: rest =>
        if e = 'u' then
          match rest with
          | h1 :: h2 :: h3 :: h4 :: rest =>
            match hexVal h1, hexVal h2, hexVal h3, hexVal h4 with
            | some a, some b, some c, some d =>
              let n := a * 4096 + b * 256 + c * 16 + d
              some (some (if 0xD800 ≤ n ∧ n < 0xE000 then Char.ofNat 0xFFFD else Char.ofNat n),
                rest)
            | _, _, _, _ => none
          | _ => none
        else
          match unescape e with
          | none => none
          | some ch => some (some ch, rest)
    else if c.toNat < 0x20 then none
    else some (some c, rest)

/-- The characters of a JSON string literal after its opening quote, and the text after its
closing quote. -/
def parseStrAux : Nat → List Char → Option (List Char × List Char)
  | 0, _ => none
  | fuel + 1, s =>
    match strNext s with
    | none => none
    | some (none, rest) => some ([], rest)
    | some (some c, rest) => (parseStrAux fuel rest).map fun p => (c :: p.1, p.2)

/-- A JSON string literal after its opening quote. -/
def parseStr (s : List Char) : Option (List Char × List Char) := parseStrAux s.length s

/-- Decimal digit. -/
def isDigit (c : Char) : Bool := 48 ≤ c.toNat && c.toNat ≤ 57

/-- The digits at the front of the text: the number they write continuing `acc`, how many they
are added to `n`, and the text after them. -/
def parseDigits (acc n : Nat) : List Char → Nat × Nat × List Char
  | [] => (acc, n, [])
  | c :: cs =>
    if isDigit c then parseDigits (acc * 10 + (c.toNat - 48)) (n + 1) cs else (acc, n, c :: cs)

/-- The integer part of a JSON number: `0`, or digits that do not start with `0`. -/
def parseInt (s : List Char) : Option (Nat × List Char) :=
  match s with
  | [] => none
  | c :: r =>
    if isDigit c then
      if c = '0' then
        match r with
        | [] => some (0, r)
        | d :: _ => if isDigit d then none else some (0, r)
      else some ((parseDigits 0 0 s).1, (parseDigits 0 0 s).2.2)
    else none

/-- The optional fraction of a JSON number after the integer part of value `acc`: the value
of all digits read so far, the number of fraction digits, and the text after them. -/
def parseFrac (acc : Nat) (s : List Char) : Option (Nat × Nat × List Char) :=
  match s with
  | [] => some (acc, 0, [])
  | c :: r =>
    if c = '.' then
      match r with
      | [] => none
      | d :: _ => if isDigit d then some (parseDigits acc 0 r) else none
    else some (acc, 0, s)

/-- The digits of an exponent, with its sign applied. -/
def parseExpDigits (negE : Bool) (s : List Char) : Option (Int × List Char) :=
  match s with
  | [] => none
  | d :: _ =>
    if isDigit d then
      some (if negE then -((parseDigits 0 0 s).1 : Int) else ((parseDigits 0 0 s).1 : Int),
        (parseDigits 0 0 s).2.2)
    else none

/-- The optional exponent of a JSON number. -/
def parseExp (s : List Char) : Option (Int × List Char) :=
  match s with
  | [] => some (0, [])
  | c :: r =>
    if c = 'e' ∨ c = 'E' then
      match r with
      | [] => none
      | x :: r' =>
        if x = '-' then parseExpDigits true r'
        else if x = '+' then parseExpDigits false r'
        else parseExpDigits false r
    else some (0, s)

/-- The number after its sign: integer part, fraction, exponent; the result is the shortest
digits and the exponent of the number written, exactly. -/
def parseUnsigned (s : List Char) : Option ((Nat × Int) × List Char) :=
  match parseInt s with
  | none => none
  | some (i, r1) =>
    match parseFrac i r1 with
    | none => none
    | some (m, k, r2) =>
      match parseExp r2 with
      | none => none
      | some (x, r3) => some (shortest m (x - (k : Int)), r3)

/-- A JSON number (RFC 8259), read exactly: its sign and the shortest digits and exponent of
its absolute value. -/
def parseNumber (s : List Char) : Option ((Bool × Nat × Int) × List Char) :=
  match s with
  | [] => none
  | c :: r =>
    if c = '-' then (parseUnsigned r).map fun p => ((true, p.1.1, p.1.2), p.2)
    else (parseUnsigned s).map fun p => ((false, p.1.1, p.1.2), p.2)

/-- The text after the literal `lit`, if the text starts with it. -/
def expect (lit s : List Char) : Option (List Char) :=
  if lit.isPrefixOf s then some (s.drop lit.length) else none

mutual
/-- A JSON value at the front of the text, and the text after it. -/
def parseValue : Nat → List Char → Option (Value × List Char)
  | 0, _ => none
  | fuel + 1, s =>
    match skipWs s with
    | [] => none
    | c :: r =>
      if c = '"' then (parseStr r).map fun p => (.str (String.mk p.1), p.2)
      else if c = '[' then
        match skipWs r with
        | [] => none
        | c' :: r' =>
          if c' = ']' then some (.list [], r')
          else (parseElems fuel (c' :: r')).map fun p => (.list p.1, p.2)
      else if c = '{' then
        match skipWs r with
        | [] => none
        | c' :: r' =>
          if c' = '}' then some (.map [], r')
          else (parseMembers fuel (c' :: r')).map fun p => (.map p.1, p.2)
      else if c = 'n' then (expect ['u', 'l', 'l'] r).map fun r' => (.null, r')
      else if c = 't' then (expect ['r', 'u', 'e'] r).map fun r' => (.bool true, r')
      else if c = 'f' then (expect ['a', 'l', 's', 'e'] r).map fun r' => (.bool false, r')
      else (parseNumber (c :: r)).map fun p => (.float p.1.1 p.1.2.1 p.1.2.2, p.2)
/-- The elements of an array up to its closing bracket. -/
def parseElems : Nat → List Char → Option (List Value × List Char)
  | 0, _ => none
  | fuel + 1, s =>
    match parseValue fuel s with
    | none => none
    | some (v, r) =>
      match skipWs r with
      | [] => none
      | c :: r' =>
        if c = ',' then (parseElems fuel r').map fun p => (v :: p.1, p.2)
        else if c = ']' then some ([v], r')
        else none
/-- The members of an object up to its closing brace, in the order written. -/
def parseMembers : Nat → List Char → Option (List (String × Value) × List Char)
  | 0, _ => none
  | fuel + 1, s =>
    match skipWs s with
    | [] => none
    | q :: r =>
      if q = '"' then
        match parseStr r with
        | none => none
        | some (k, r1) =>
          match skipWs r1 with
          | [] => none
          | c :: r2 =>
            if c = ':' then
              match parseValue fuel r2 with
              | none => none
              | some (v, r3) =>
                match skipWs r3 with
                | [] => none
                | c' :: r4 =>
                  if c' = ',' then
                    (parseMembers fuel r4).map fun p => ((String.mk k, v) :: p.1, p.2)
                  else if c' = '}' then some ([(String.mk k, v)], r4)
                  else none
            else none
      else none
end

/-- JSON decoding of a text that holds one value, with only whitespace after it.  Every
number comes back as the decimal it writes (sign, shortest digits, exponent), whatever Go type
it was encoded from; strings, literals, arrays and objects as in `encoding/json`. -/
def jsonDecode (s : List Char) : Option Value :=
  match parseValue (s.length + 1) s with
  | none => none
  | some (v, r) => if skipWs r = [] then some v else none

/-- The text after a value inside an array or object, or the end of the text. -/
def stops : List Char → Bool
  | [] => true
  | c :: _ => c = ',' || c = ']' || c = '}'

mutual
/-- The value the parser builds from the text of a value: a number comes back as its sign, its
digits without zeros at the end and its exponent, and the entries of a map come back in the
order they are written, which is key order. -/
def readBack : Value → Value
  | .num n => .float (decide (n < 0)) (shortest n.natAbs 0).1 (shortest n.natAbs 0).2
  | .float neg m e => .float neg (shortest m e).1 (shortest m e).2
  | .list xs => .list (readBackList xs)
  | .map kvs => .map (sortEntries (readBackEntries kvs))
  | v => v
/-- The elements of a list as read back. -/
def readBackList : List Value → List Value
  | [] => []
  | v :: vs => readBack v :: readBackList vs
/-- The values of the entries of a map as read back. -/
def readBackEntries : List (String × Value) → List (String × Value)
  | [] => []
  | (k, v) :: rest => (k, readBack v) :: readBackEntries rest
end

mutual
/-- Structural equality of a leaf value and a decoded JSON value.  Literals and strings are
equal when they are identical; numbers when they have the same sign and the same value (an
integer `n` and a decimal `m * 10^e` with `|n| = m * 10^e`); lists when they have the same
length and equal elements in the same order; maps when they have the same keys with equal
values, in any order. -/
inductive SameValue : Value → Value → Prop
  | null : SameValue .null .null
  | bool (b : Bool) : SameValue (.bool b) (.bool b)
  | int (n : Int) (m : Nat) (e : Int) :
      (n.natAbs : ℚ) = (m : ℚ) * (10 : ℚ) ^ e → SameValue (.num n) (.float (decide (n < 0)) m e)
  | float (neg : Bool) (m : Nat) (e : Int) (m' : Nat) (e' : Int) :
      (m : ℚ) * (10 : ℚ) ^ e = (m' : ℚ) * (10 : ℚ) ^ e' →
      SameValue (.float neg m e) (.float neg m' e')
  | str (s : String) : SameValue (.str s) (.str s)
  | list {xs ys : List Value} : SameList xs ys → SameValue (.list xs) (.list ys)
  | map {kvs l kvs' : List (String × Value)} :
      SameEntries kvs l → l.Perm kvs' → SameValue (.map kvs) (.map kvs')
  | imap : SameValue .imap .imap
/-- Lists of the same length with equal elements in the same order. -/
inductive SameList : List Value → List Value → Prop
  | nil : SameList [] []
  | cons {x y : Value} {xs ys : List Value} :
      SameValue x y → SameList xs ys → SameList (x :: xs) (y :: ys)
/-- Entries with the same keys and equal values, in the same order. -/
inductive SameEntries : List (String × Value) → List (String × Value) → Prop
  | nil : SameEntries [] []
  | cons (k : String) {v w : Value} {kvs l : List (String × Value)} :
      SameValue v w → SameEntries kvs l → SameEntries ((k, v) :: kvs) ((k, w) :: l)
end

mutual
/-- Number of values in a value, itself included: the recursion budget its text needs. -/
def size : Value → Nat
  | .list xs => 1 + sizeList xs
  | .map kvs => 1 + sizeEntries kvs
  | _ => 1
/-- Budget of the elements of a list. -/
def sizeList : List Value → Nat
  | [] => 0
  | v :: vs => 1 + size v + sizeList vs
/-- Budget of the entries of a map. -/
def sizeEntries : List (String × Value) → Nat
  | [] => 0
  | (_, v) :: rest => 1 + size v + sizeEntries rest
end

/-- The parser reads the JSON text of `v` back, whatever follows it inside an array or an
object, given a recursion budget of at least `size v`. -/
def ParsesBack (v : Value) : Prop :=
  (marshal v).isSome = true → ∀ fuel, size v ≤ fuel → ∀ rest, stops rest = true →
    parseValue fuel (leafText v ++ rest) = some (readBack v, rest)

/-- The text a base64 string stands for: `base64.StdEncoding.DecodeString`, read as UTF-8. -/
def base64Text (s : String) : Option (List Char) :=
  (b64Decode s.data).bind utf8Decode

/-- The number a digit string writes, continuing `acc`. -/
def digitsVal (acc : Nat) (xs : List Char) : Nat :=
  xs.foldl (fun a c => a * 10 + (c.toNat - 48)) acc

/-- Whether `old` occurs somewhere in the text. -/
def occurs (old : List Char) : List Char → Bool
  | [] => old.isPrefixOf []
  | c :: cs => old.isPrefixOf (c :: cs) || occurs old cs

/-- None of the four texts that `runTmplCmd` replaces occurs in `x`. -/
def patternFree (x : List Char) : Bool :=
  !occurs ['"', '{', '{'] x && !occurs ['}', '}', '"'] x && !occurs ['{', '{', '{'] x
    && !occurs ['}', '}', '}'] x

/-- An argument that the sentinels delimit without ambiguity: none of the four replaced texts
occurs in it and it does not end with a closing brace. -/
def sentinelFree (x : List Char) : Bool :=
  patternFree x && x.getLast? != some '}'

/-- A character that is part of none of the four replaced texts. -/
def plain (c : Char) : Bool := c != '"' && c != '{' && c != '}'

/-- The text is empty or ends with a plain character. -/
def endsPlain (t : List Char) : Bool :=
  match t.getLast? with
  | none => true
  | some c => plain c

/-- The text is empty or starts with a plain character. -/
def startsPlain (t : List Char) : Bool :=
  match t.head? with
  | none => true
  | some c => plain c

/-- One character of a JSON string literal as `json.Marshal` and `json.MarshalIndent` write
it: HTML escaping is on, so `<`, `>` and `&` are written `\u003c`, `\u003e`, `\u0026`; the
other characters as with HTML escaping off. -/
def escapeCharHTML (c : Char) : List Char :=
  if c = '<' ∨ c = '>' ∨ c = '&' then
    ['\\', 'u', '0', '0', hexDigit (c.toNat / 16), hexDigit (c.toNat % 16)]
  else escapeChar c

/-- Body of a JSON string literal with HTML escaping on. -/
def escapeCharsHTML : List Char → List Char
  | [] => []
  | c :: cs => escapeCharHTML c ++ escapeCharsHTML cs

/-- The text `json.MarshalIndent` writes for a string value of the settings, such as a
directive set by `updateValue`. -/
def jsonString (s : String) : List Char := '"' :: (escapeCharsHTML s.data ++ ['"'])

/-- The text before the first occurrence of `pat` and the text after it. -/
def breakAt (pat : List Char) : List Char → Option (List Char × List Char)
  | [] => none
  | c :: cs =>
    if pat.isPrefixOf (c :: cs) then some ([], (c :: cs).drop pat.length)
    else (breakAt pat cs).map fun p => (c :: p.1, p.2)

/-- The text without the ending `suf`, when it ends with it. -/
def stripSuffix (suf s : List Char) : Option (List Char) :=
  if suf.isSuffixOf s then some (s.take (s.length - suf.length)) else none

/-- The two arguments of a directive as `updateValue` writes it, read from its text: after
the opening `{{ keyOrDefault {{{`, the key reference runs up to the first `}}} {{{`, and the
default literal from there to the closing `}}} }}`. -/
def directiveArgs (d : String) : Option (String × List Char) :=
  match expect "\x7b\x7b keyOrDefault \x7b\x7b\x7b".data d.data with
  | none => none
  | some r =>
    match breakAt "\x7d\x7d\x7d \x7b\x7b\x7b".data r with
    | none => none
    | some (key, r') =>
      match stripSuffix "\x7d\x7d\x7d \x7d\x7d".data r' with
      | none => none
      | some dflt => some (String.mk key, dflt)

/-! ## Runs that complete -/

theorem trimSuffix_newline (e : List Char) : trimSuffix (e ++ ['\n']) ['\n'] = e := by
  have h : List.isSuffixOf ['\n'] (e ++ ['\n']) = true := by
    simp [List.isSuffixOf, List.isPrefixOf]
  simp [trimSuffix, h]

theorem encodeLeaf_of_marshal {v : Value} (h : (marshal v).isSome = true) :
    encodeLeaf v = .ok (leafText v) := by
  obtain ⟨e, he⟩ := Option.isSome_iff_exists.mp h
  simp [encodeLeaf, encoderEncode, leafText, he, trimSuffix_newline]

theorem encodeLeaf_of_not_marshal {v : Value} (h : (marshal v).isSome = false) :
    encodeLeaf v = .error .marshal := by
  have he : marshal v = none := by simpa using h
  simp [encodeLeaf, encoderEncode, he]

theorem walkable_cons (k : String) (v : Value) (rest : Tree) :
    walkable ((k, v) :: rest) = (((leavesV v).all fun p => encodable p.2) && walkable rest) := by
  simp only [walkable, leaves, List.all_append, List.all_map, Function.comp_def]

theorem slashPath_cons (pfx k : String) (ks : List String) :
    slashPath pfx (k :: ks) = slashPath (newPrefix pfx k) ks := rfl

mutual
theorem kvVisit_ok (ckv : List consulKVPair) (q : String) :
    ∀ v : Value, ((leavesV v).all fun p => encodable p.2) = true →
      kvVisit ckv q v = .ok (ckv ++ (leavesV v).map (pairOf q))
  | .null, h => by simp [leavesV, encodable] at h
  | .imap, h => by simp [leavesV, encodable] at h
  | .map m, h => by
      simp only [leavesV] at h
      simp only [kvVisit, leavesV]
      exact mapToKVPairs_ok ckv q m h
  | .bool b, h => by
      simp [leavesV, encodable] at h
      simp [kvVisit, leavesV, encodeLeaf_of_marshal h, pairOf, slashPath]
  | .num b, h => by
      simp [leavesV, encodable] at h
      simp [kvVisit, leavesV, encodeLeaf_of_marshal h, pairOf, slashPath]
  | .float s m e, h => by
      simp [leavesV, encodable] at h
      simp [kvVisit, leavesV, encodeLeaf_of_marshal h, pairOf, slashPath]
  | .str b, h => by
      simp [leavesV, encodable] at h
      simp [kvVisit, leavesV, encodeLeaf_of_marshal h, pairOf, slashPath]
  | .list b, h => by
      simp [leavesV, encodable] at h
      simp [kvVisit, leavesV, encodeLeaf_of_marshal h, pairOf, slashPath]
theorem mapToKVPairs_ok (ckv : List consulKVPair) (pfx : String) :
    ∀ t : Tree, walkable t = true →
      mapToKVPairs ckv pfx t = .ok (ckv ++ (leaves t).map (pairOf pfx))
  | [], _ => by simp [mapToKVPairs, leaves]
  | (k, v) :: rest, h => by
      rw [walkable_cons, Bool.and_eq_true] at h
      simp only [mapToKVPairs, kvVisit_ok ckv (newPrefix pfx k) v h.1,
        mapToKVPairs_ok _ pfx rest h.2, leaves]
      simp [List.map_append, List.map_map, Function.comp_def, pairOf, slashPath_cons]
end

mutual
theorem kvVisit_error (ckv : List consulKVPair) (q : String) :
    ∀ v : Value, ((leavesV v).all fun p => encodable p.2) = false →
      ∃ e, kvVisit ckv q v = .error e
  | .null, _ => ⟨_, rfl⟩
  | .imap, _ => ⟨_, rfl⟩
  | .map m, h => by
      simp only [leavesV] at h
      simp only [kvVisit]
      exact mapToKVPairs_error ckv q m h
  | .bool b, h => by
      cases b <;> simp [leavesV, encodable, marshal] at h
  | .num b, h => by
      simp [leavesV, encodable, marshal] at h
  | .float s m e, h => by
      simp [leavesV, encodable, marshal] at h
  | .str b, h => by
      simp [leavesV, encodable, marshal] at h
  | .list b, h => by
      simp only [leavesV, List.all_cons, List.all_nil, Bool.and_true, encodable] at h
      exact ⟨.marshal, by simp only [kvVisit, encodeLeaf_of_not_marshal h]⟩
theorem mapToKVPairs_error (ckv : List consulKVPair) (pfx : String) :
    ∀ t : Tree, walkable t = false → ∃ e, mapToKVPairs ckv pfx t = .error e
  | [], h => by simp [walkable, leaves] at h
  | (k, v) :: rest, h => by
      rw [walkable_cons] at h
      cases h1 : ((leavesV v).all fun p => encodable p.2)
      · obtain ⟨e, he⟩ := kvVisit_error ckv (newPrefix pfx k) v h1
        exact ⟨e, by simp only [mapToKVPairs, he]⟩
      · rw [h1, Bool.true_and] at h
        obtain ⟨e, he⟩ :=
          mapToKVPairs_error (ckv ++ (leavesV v).map (pairOf (newPrefix pfx k))) pfx rest h
        exact ⟨e, by simp only [mapToKVPairs, kvVisit_ok ckv (newPrefix pfx k) v h1, he]⟩
end

theorem dotPath_cons (key k : String) (ks : List String) :
    dotPath key (k :: ks) = dotPath (newKey key k) ks := rfl

mutual
theorem tmplVisit_ok (sets : List SetCall) (q a : String) :
    ∀ v : Value, ((leavesV v).all fun p => encodable p.2) = true →
      tmplVisit sets q a v = .ok (sets ++ (leavesV v).map (callOf q a))
  | .null, h => by simp [leavesV, encodable] at h
  | .imap, h => by simp [leavesV, encodable] at h
  | .map m, h => by
      simp only [leavesV] at h
      simp only [tmplVisit, leavesV]
      exact updateValue_ok sets q a m h
  | .bool b, h => by
      simp [leavesV, encodable] at h
      simp [tmplVisit, leavesV, encodeLeaf_of_marshal h, callOf, slashPath, dotPath]
  | .num b, h => by
      simp [leavesV, encodable] at h
      simp [tmplVisit, leavesV, encodeLeaf_of_marshal h, callOf, slashPath, dotPath]
  | .float s m e, h => by
      simp [leavesV, encodable] at h
      simp [tmplVisit, leavesV, encodeLeaf_of_marshal h, callOf, slashPath, dotPath]
  | .str b, h => by
      simp [leavesV, encodable] at h
      simp [tmplVisit, leavesV, encodeLeaf_of_marshal h, callOf, slashPath, dotPath]
  | .list b, h => by
      simp [leavesV, encodable] at h
      simp [tmplVisit, leavesV, encodeLeaf_of_marshal h, callOf, slashPath, dotPath]
theorem updateValue_ok (sets : List SetCall) (pfx key : String) :
    ∀ t : Tree, walkable t = true →
      updateValue sets pfx key t = .ok (sets ++ (leaves t).map (callOf pfx key))
  | [], _ => by simp [updateValue, leaves]
  | (k, v) :: rest, h => by
      rw [walkable_cons, Bool.and_eq_true] at h
      simp only [updateValue, tmplVisit_ok sets (newPrefix pfx k) (newKey key k) v h.1,
        updateValue_ok _ pfx key rest h.2, leaves]
      simp [List.map_append, List.map_map, Function.comp_def, callOf, slashPath_cons,
        dotPath_cons]
end

mutual
theorem tmplVisit_error (sets : List SetCall) (q a : String) :
    ∀ v : Value, ((leavesV v).all fun p => encodable p.2) = false →
      ∃ e, tmplVisit sets q a v = .error e
  | .null, _ => ⟨_, rfl⟩
  | .imap, _ => ⟨_, rfl⟩
  | .map m, h => by
      simp only [leavesV] at h
      simp only [tmplVisit]
      exact updateValue_error sets q a m h
  | .bool b, h => by
      cases b <;> simp [leavesV, encodable, marshal] at h
  | .num b, h => by
      simp [leavesV, encodable, marshal] at h
  | .float s m e, h => by
      simp [leavesV, encodable, marshal] at h
  | .str b, h => by
      simp [leavesV, encodable, marshal] at h
  | .list b, h => by
      simp only [leavesV, List.all_cons, List.all_nil, Bool.and_true, encodable] at h
      exact ⟨.marshal, by simp only [tmplVisit, encodeLeaf_of_not_marshal h]⟩
theorem updateValue_error (sets : List SetCall) (pfx key : String) :
    ∀ t : Tree, walkable t = false → ∃ e, updateValue sets pfx key t = .error e
  | [], h => by simp [walkable, leaves] at h
  | (k, v) :: rest, h => by
      rw [walkable_cons] at h
      cases h1 : ((leavesV v).all fun p => encodable p.2)
      · obtain ⟨e, he⟩ := tmplVisit_error sets (newPrefix pfx k) (newKey key k) v h1
        exact ⟨e, by simp only [updateValue, he]⟩
      · rw [h1, Bool.true_and] at h
        obtain ⟨e, he⟩ :=
          updateValue_error (sets ++ (leavesV v).map (callOf (newPrefix pfx k) (newKey key k)))
            pfx key rest h
        exact ⟨e, by
          simp only [updateValue, tmplVisit_ok sets (newPrefix pfx k) (newKey key k) v h1, he]⟩
end

/-- A run of `mapToKVPairs` completes exactly on the walkable trees. -/
theorem mapToKVPairs_ok_iff (ckv out : List consulKVPair) (pfx : String) (t : Tree) :
    mapToKVPairs ckv pfx t = .ok out ↔
      walkable t = true ∧ out = ckv ++ (leaves t).map (pairOf pfx) := by
  constructor
  · intro h
    cases hw : walkable t
    · obtain ⟨e, he⟩ := mapToKVPairs_error ckv pfx t hw
      rw [he] at h; cases h
    · rw [mapToKVPairs_ok ckv pfx t hw] at h
      exact ⟨rfl, (Except.ok.inj h).symm⟩
  · rintro ⟨hw, rfl⟩
    exact mapToKVPairs_ok ckv pfx t hw

/-- A run of `updateValue` completes exactly on the walkable trees. -/
theorem updateValue_ok_iff (sets out : List SetCall) (pfx key : String) (t : Tree) :
    updateValue sets pfx key t = .ok out ↔
      walkable t = true ∧ out = sets ++ (leaves t).map (callOf pfx key) := by
  constructor
  · intro h
    cases hw : walkable t
    · obtain ⟨e, he⟩ := updateValue_error sets pfx key t hw
      rw [he] at h; cases h
    · rw [updateValue_ok sets pfx key t hw] at h
      exact ⟨rfl, (Except.ok.inj h).symm⟩
  · rintro ⟨hw, rfl⟩
    exact updateValue_ok sets pfx key t hw

/-! ## Paths -/

theorem append_sep_ne_empty (acc sep k : String) (h : acc ≠ "") : acc ++ sep ++ k ≠ "" := by
  intro h'
  have h2 := congrArg String.length h'
  simp only [String.length_append] at h2
  have h3 : acc.length = 0 := by
    have : "".length = 0 := rfl
    omega
  exact h (String.ext (List.length_eq_zero.mp h3))

theorem foldl_join_of_ne (sep : String) (f : String → String → String)
    (hf : ∀ acc k, f acc k = if acc = "" then k else acc ++ sep ++ k)
    {acc : String} (h : acc ≠ "") (ks : List String) :
    ks.foldl f acc = sep.intercalate (acc :: ks) := by
  induction ks generalizing acc with
  | nil => simp [String.intercalate, String.intercalate.go]
  | cons k ks ih =>
    have hne : f acc k ≠ "" := by
      rw [hf, if_neg h]; exact append_sep_ne_empty acc sep k h
    rw [List.foldl_cons, ih hne, hf, if_neg h]
    simp [String.intercalate, String.intercalate.go]

theorem foldl_join_empty (sep : String) (f : String → String → String)
    (hf : ∀ acc k, f acc k = if acc = "" then k else acc ++ sep ++ k)
    (ks : List String) :
    ks.foldl f "" = sep.intercalate (ks.dropWhile fun k => k = "") := by
  induction ks with
  | nil => simp [String.intercalate]
  | cons k ks ih =>
    rw [List.foldl_cons, hf, if_pos rfl]
    by_cases hk : k = ""
    · subst hk
      rw [ih]; simp [List.dropWhile]
    · rw [foldl_join_of_ne sep f hf hk]
      simp [List.dropWhile, hk]

theorem slashPath_of_ne {pfx : String} (h : pfx ≠ "") (ks : List String) :
    slashPath pfx ks = "/".intercalate (pfx :: ks) :=
  foldl_join_of_ne "/" newPrefix (fun _ _ => rfl) h ks

theorem slashPath_empty (ks : List String) :
    slashPath "" ks = "/".intercalate (ks.dropWhile fun k => k = "") :=
  foldl_join_empty "/" newPrefix (fun _ _ => rfl) ks

theorem dotPath_empty (ks : List String) :
    dotPath "" ks = ".".intercalate (ks.dropWhile fun k => k = "") :=
  foldl_join_empty "." newKey (fun _ _ => rfl) ks

theorem dropWhile_head_ne {k : String} (hk : k ≠ "") (ks : List String) :
    (k :: ks).dropWhile (fun k => k = "") = k :: ks := by
  simp [List.dropWhile, hk]

theorem leaves_of_only_empty_maps :
    ∀ t : Tree, (∀ e ∈ t, e.2 = Value.map []) → leaves t = []
  | [], _ => rfl
  | (k, v) :: rest, h => by
      have hv : v = Value.map [] := h (k, v) (List.mem_cons_self _ _)
      have hr := leaves_of_only_empty_maps rest fun e he => h e (List.mem_cons_of_mem _ he)
      subst hv
      simp [leaves, leavesV, hr]

/-! ## Claims -/

/-- C1. On every tree whose leaves the traversal can handle, `mapToKVPairs` returns the output
slice extended by exactly one pair per leaf (a list is one leaf); on a tree that is empty or
holds only empty maps it returns the slice unchanged. -/
theorem mapToKVPairs_one_pair_per_leaf (ckv : List consulKVPair) (P : String) (T : Tree) :
    (walkable T = true →
      ∃ added, mapToKVPairs ckv P T = .ok (ckv ++ added) ∧ added.length = leafCount T) ∧
    ((∀ e ∈ T, e.2 = Value.map []) → mapToKVPairs ckv P T = .ok ckv) := by
  constructor
  · intro h
    exact ⟨_, mapToKVPairs_ok ckv P T h, by simp [leafCount]⟩
  · intro h
    have hl := leaves_of_only_empty_maps T h
    have hw : walkable T = true := by simp [walkable, hl]
    simpa [hl] using mapToKVPairs_ok ckv P T hw

theorem mapToKVPairs_one_pair_per_leaf_witness :
    (∃ added, mapToKVPairs [] "svc"
        [("a", .map [("b", .num 1), ("c", .list [.str "x", .bool true])]), ("d", .map [])]
          = .ok ([] ++ added) ∧
        added.length = leafCount
          [("a", .map [("b", .num 1), ("c", .list [.str "x", .bool true])]), ("d", .map [])]) ∧
    mapToKVPairs [] "svc" [("d", .map []), ("e", .map [])] = .ok [] :=
  ⟨(mapToKVPairs_one_pair_per_leaf [] "svc" _).1 (by decide),
   (mapToKVPairs_one_pair_per_leaf [] "svc" _).2 (by simp)⟩

/-- C10. For a format name outside `json`, `hcl`, `prop`, `props`, `properties`, `toml`,
`yaml`, `yml`, `mapToConfigString` returns the empty string and a nil error, whatever the
settings and whatever the serializers do. -/
theorem mapToConfigString_unknown_format (lib : Serializers) (cMap : Tree) (configType : String)
    (h : configType ∉ ["json", "hcl", "prop", "props", "properties", "toml", "yaml", "yml"]) :
    mapToConfigString lib cMap configType = ("", none) := by
  simp only [List.mem_cons, List.mem_singleton, List.not_mem_nil, or_false, not_or] at h
  obtain ⟨h1, h2, h3, h4, h5, h6, h7, h8⟩ := h
  simp [mapToConfigString, h1, h2, h3, h4, h5, h6, h7, h8]

theorem mapToConfigString_unknown_format_witness :
    "xml" ∉ ["json", "hcl", "prop", "props", "properties", "toml", "yaml", "yml"] ∧
    mapToConfigString ⟨fun _ => .ok "j", fun _ => .ok "h", fun _ => .ok "p", fun _ => .ok "t",
      fun _ => .error "y"⟩ [("a", .num 1)] "xml" = ("", none) :=
  ⟨by decide, mapToConfigString_unknown_format _ _ "xml" (by decide)⟩

/-- C9 (counterexample). Called on a tree in which a key holds nil, both traversals stop at
`reflect.TypeOf(v).Kind()`: no pair with the value `bnVsbA==` and no directive is produced. -/
theorem null_leaf_aborts :
    mapToKVPairs [] "" [("a", .null)] = .error .nilDeref ∧
    updateValue [] "" "" [("a", .null)] = .error .nilDeref := by
  decide

theorem dropWhile_of_head {ks : List String} (h : ks.head? ≠ some "") :
    ks.dropWhile (fun k => decide (k = "")) = ks := by
  cases ks with
  | nil => rfl
  | cons k ks =>
    have hk : k ≠ "" := by simpa using h
    simp [List.dropWhile, hk]

theorem slashPath_eq_dropWhile (P : String) (ks : List String) :
    slashPath P ks = "/".intercalate ((P :: ks).dropWhile fun k => decide (k = "")) := by
  by_cases hP : P = ""
  · subst hP
    rw [slashPath_empty]; simp [List.dropWhile]
  · rw [slashPath_of_ne hP]; simp [List.dropWhile, hP]

/-- C2 (counterexample). Under the empty prefix an empty first key leaves the prefix empty, so
the leaf of `{"": {"b": 1}}` gets the key `b`, not the joined path `/b`. -/
theorem key_loses_empty_first_segment :
    mapToKVPairs [] "" [("", .map [("b", .num 1)])] = .ok [⟨0, "b", "MQ=="⟩] ∧
    "b" ≠ "/".intercalate ["", "b"] := by
  decide

/-- C2 (amended). The key of the pair emitted for a leaf is the list `P, k1, ..., kn` without
the empty strings at its front, joined with `/`: it is `P/k1/.../kn` when `P` is not empty and
`k1/.../kn` when `P` is empty and `k1` is not. -/
theorem mapToKVPairs_keys (ckv : List consulKVPair) (P : String) (T : Tree)
    (h : walkable T = true) :
    ∃ added, mapToKVPairs ckv P T = .ok (ckv ++ added) ∧
      added.map (fun kv => kv.Key) =
        (leaves T).map (fun p => "/".intercalate ((P :: p.1).dropWhile fun k => decide (k = ""))) ∧
      (P ≠ "" →
        added.map (fun kv => kv.Key) = (leaves T).map fun p => "/".intercalate (P :: p.1)) ∧
      (P = "" → (∀ p ∈ leaves T, p.1.head? ≠ some "") →
        added.map (fun kv => kv.Key) = (leaves T).map fun p => "/".intercalate p.1) := by
  refine ⟨_, mapToKVPairs_ok ckv P T h, ?_, ?_, ?_⟩
  · simp [List.map_map, Function.comp_def, pairOf, leafPair, slashPath_eq_dropWhile]
  · intro hP
    simp [List.map_map, Function.comp_def, pairOf, leafPair, slashPath_of_ne hP]
  · intro hP hk
    subst hP
    rw [List.map_map]
    apply List.map_congr_left
    intro p hp
    simp only [Function.comp_def, pairOf, leafPair, slashPath_empty, dropWhile_of_head (hk p hp)]

theorem mapToKVPairs_keys_witness :
    ∃ added, mapToKVPairs [] "svc" [("a", .map [("b", .num 1), ("c", .str "x")])]
        = .ok ([] ++ added) ∧
      added.map (fun kv => kv.Key) =
        (leaves [("a", .map [("b", .num 1), ("c", .str "x")])]).map
          (fun p => "/".intercalate (("svc" :: p.1).dropWhile fun k => decide (k = ""))) ∧
      ("svc" ≠ "" →
        added.map (fun kv => kv.Key) =
          (leaves [("a", .map [("b", .num 1), ("c", .str "x")])]).map
            fun p => "/".intercalate ("svc" :: p.1)) ∧
      ("svc" = "" → (∀ p ∈ leaves [("a", .map [("b", .num 1), ("c", .str "x")])],
          p.1.head? ≠ some "") →
        added.map (fun kv => kv.Key) =
          (leaves [("a", .map [("b", .num 1), ("c", .str "x")])]).map
            fun p => "/".intercalate p.1) :=
  mapToKVPairs_keys [] "svc" [("a", .map [("b", .num 1), ("c", .str "x")])] (by decide)

/-- C8 (counterexample). With prefix `svc` the leaf of `{"": {"b": 1}}` is set at the address
`b`, one segment, while its directive names the path `svc//b`, whose segments after the prefix
are the empty string and `b`. -/
theorem address_loses_empty_first_segment :
    updateValue [] "svc" "" [("", .map [("b", .num 1)])]
      = .ok [⟨"b", directive "svc//b" ['1']⟩] ∧
    "b" ≠ ".".intercalate ["", "b"] ∧ "svc//b" = "/".intercalate ["svc", "", "b"] := by
  decide

/-- C8 (amended). For a leaf reached through `k1, ..., kn`, `updateValue` calls `viper.Set`
with the address made of `k1, ..., kn` without the empty strings at the front, joined with `.`,
and a directive naming the path made of `P, k1, ..., kn` without the empty strings at the
front, joined with `/`.  When `k1` is not empty the address is `k1.k2. ... .kn` and the path is
`P/k1/.../kn` (or `k1/.../kn` for an empty `P`): the same keys in the same order. -/
theorem updateValue_paths (sets : List SetCall) (P : String) (T : Tree)
    (h : walkable T = true) :
    ∃ added, updateValue sets P "" T = .ok (sets ++ added) ∧
      added = (leaves T).map (fun p =>
        ⟨".".intercalate (p.1.dropWhile fun k => decide (k = "")),
         directive ("/".intercalate ((P :: p.1).dropWhile fun k => decide (k = "")))
           (leafText p.2)⟩) ∧
      ((∀ p ∈ leaves T, p.1.head? ≠ some "") →
        added = (leaves T).map (fun p =>
          ⟨".".intercalate p.1,
           directive (if P = "" then "/".intercalate p.1 else "/".intercalate (P :: p.1))
             (leafText p.2)⟩)) := by
  refine ⟨_, updateValue_ok sets P "" T h, ?_, ?_⟩
  · simp [callOf, slashPath_eq_dropWhile, dotPath_empty]
  · intro hk
    apply List.map_congr_left
    intro p hp
    have hd := dropWhile_of_head (hk p hp)
    by_cases hP : P = ""
    · subst hP
      simp only [callOf, dotPath_empty, slashPath_empty, hd, if_pos]
    · simp only [callOf, dotPath_empty, slashPath_of_ne hP, hd, if_neg hP]

theorem updateValue_paths_witness :
    ∃ added, updateValue [] "svc" "" [("a", .map [("b", .num 1), ("c", .str "x")])]
        = .ok ([] ++ added) ∧
      added = (leaves [("a", .map [("b", .num 1), ("c", .str "x")])]).map (fun p =>
        ⟨".".intercalate (p.1.dropWhile fun k => decide (k = "")),
         directive ("/".intercalate (("svc" :: p.1).dropWhile fun k => decide (k = "")))
           (leafText p.2)⟩) ∧
      ((∀ p ∈ leaves [("a", .map [("b", .num 1), ("c", .str "x")])], p.1.head? ≠ some "") →
        added = (leaves [("a", .map [("b", .num 1), ("c", .str "x")])]).map (fun p =>
          ⟨".".intercalate p.1,
           directive (if "svc" = "" then "/".intercalate p.1 else "/".intercalate ("svc" :: p.1))
             (leafText p.2)⟩)) :=
  updateValue_paths [] "svc" [("a", .map [("b", .num 1), ("c", .str "x")])] (by decide)

theorem SameTree.leaves_perm {t t' : Tree} (h : SameTree t t') : (leaves t).Perm (leaves t') := by
  induction h with
  | nil => exact List.Perm.refl _
  | cons k v _ ih =>
    simp only [leaves]
    exact List.Perm.append_left _ ih
  | consMap k _ _ ihm iht =>
    simp only [leaves, leavesV]
    exact List.Perm.append (List.Perm.map _ ihm) iht
  | swap a b t =>
    obtain ⟨ka, va⟩ := a
    obtain ⟨kb, vb⟩ := b
    simp only [leaves]
    rw [← List.append_assoc, ← List.append_assoc]
    exact List.Perm.append_right _ List.perm_append_comm
  | trans _ _ ih₁ ih₂ => exact ih₁.trans ih₂

theorem SameTree.walkable_eq {t t' : Tree} (h : SameTree t t') : walkable t = walkable t' := by
  have hp := h.leaves_perm
  rw [Bool.eq_iff_iff]
  simp only [walkable, List.all_eq_true]
  exact ⟨fun H p hp' => H p (hp.mem_iff.mpr hp'), fun H p hp' => H p (hp.mem_iff.mp hp')⟩

/-- C4 (counterexample). The same map visited with `c` before `b` gives the pairs in the other
order, not the sequence of the claim. -/
theorem order_follows_iteration :
    SameTree [("a", .map [("b", .num 1), ("c", .str "x")])]
      [("a", .map [("c", .str "x"), ("b", .num 1)])] ∧
    mapToKVPairs [] "" [("a", .map [("c", .str "x"), ("b", .num 1)])]
      = .ok [⟨0, "a/c", "Ingi"⟩, ⟨0, "a/b", "MQ=="⟩] ∧
    mapToKVPairs [] "" [("a", .map [("c", .str "x"), ("b", .num 1)])]
      ≠ .ok [⟨0, "a/b", "MQ=="⟩, ⟨0, "a/c", "Ingi"⟩] :=
  ⟨SameTree.consMap "a" (SameTree.swap _ _ _) SameTree.nil, by decide, by decide⟩

/-- C4 (amended). The sequence is a function of the order in which the maps are iterated: two
runs over the same tree in two iteration orders both complete, and yield the same pairs up to
their order.  Visited with `b` before `c`, the tree `{"a": {"b": 1, "c": "x"}}` with the empty
prefix yields `a/b` with the base64 text of `1`, then `a/c` with the base64 text of `"x"`,
both with flags 0. -/
theorem mapToKVPairs_order (ckv : List consulKVPair) (P : String) (T T' : Tree)
    (hs : SameTree T T') (h : walkable T = true) :
    (∃ added added', mapToKVPairs ckv P T = .ok (ckv ++ added) ∧
      mapToKVPairs ckv P T' = .ok (ckv ++ added') ∧ added.Perm added') ∧
    mapToKVPairs [] "" [("a", .map [("b", .num 1), ("c", .str "x")])]
      = .ok [⟨0, "a/b", String.mk (b64Encode (utf8Bytes ['1']))⟩,
             ⟨0, "a/c", String.mk (b64Encode (utf8Bytes ['"', 'x', '"']))⟩] := by
  refine ⟨⟨_, _, mapToKVPairs_ok ckv P T h,
    mapToKVPairs_ok ckv P T' (hs.walkable_eq ▸ h), List.Perm.map _ hs.leaves_perm⟩, ?_⟩
  decide

theorem mapToKVPairs_order_witness :
    (∃ added added', mapToKVPairs [] "" [("a", .map [("b", .num 1), ("c", .str "x")])]
        = .ok ([] ++ added) ∧
      mapToKVPairs [] "" [("a", .map [("c", .str "x"), ("b", .num 1)])] = .ok ([] ++ added') ∧
      added.Perm added') ∧
    mapToKVPairs [] "" [("a", .map [("b", .num 1), ("c", .str "x")])]
      = .ok [⟨0, "a/b", String.mk (b64Encode (utf8Bytes ['1']))⟩,
             ⟨0, "a/c", String.mk (b64Encode (utf8Bytes ['"', 'x', '"']))⟩] :=
  mapToKVPairs_order [] "" _ _ (SameTree.consMap "a" (SameTree.swap _ _ _) SameTree.nil)
    (by decide)

/-! ## Texts of strings and directives -/

theorem tmplReplace_data (s : String) : (tmplReplace s).data = replace4 s.data := rfl

theorem directive_data (p : String) (out : List Char) :
    (directive p out).data = '{' :: '{' :: ' ' :: 'k' :: 'e' :: 'y' :: 'O' :: 'r' :: 'D' :: 'e'
        :: 'f' :: 'a' :: 'u' :: 'l' :: 't' :: ' ' :: '{' :: '{' :: '{' :: (p.data ++ '}' :: '}'
        :: '}' :: ' ' :: '{' :: '{' :: '{' :: (out ++ ['}', '}', '}', ' ', '}', '}'])) := by
  simp only [directive, String.data_append, List.append_assoc]
  rfl

/-! ## Decoding base64, UTF-8 and JSON strings -/

theorem b64Val_b64Char : ∀ n, n < 64 → b64Val (b64Char n) = some n := by decide

theorem b64Char_ne_pad : ∀ n, n < 64 → b64Char n ≠ '=' := by decide

theorem b64Decode_encode : ∀ bs : List Nat, (∀ b ∈ bs, b < 256) →
    b64Decode (b64Encode bs) = some bs
  | [], _ => rfl
  | [a], h => by
    have ha : a < 256 := h a (by simp)
    have h0 := b64Val_b64Char (a / 4) (by omega)
    have h1 := b64Val_b64Char (a % 4 * 16) (by omega)
    simp only [b64Encode, b64Decode, h0, h1]
    simp
    omega
  | [a, b], h => by
    have ha : a < 256 := h a (by simp)
    have hb : b < 256 := h b (by simp)
    have h0 := b64Val_b64Char (a / 4) (by omega)
    have h1 := b64Val_b64Char (a % 4 * 16 + b / 16) (by omega)
    have h2 := b64Val_b64Char (b % 16 * 4) (by omega)
    have n2 := b64Char_ne_pad (b % 16 * 4) (by omega)
    simp only [b64Encode, b64Decode, h0, h1, h2, if_neg n2]
    simp
    omega
  | a :: b :: c :: rest, h => by
    have ha : a < 256 := h a (by simp)
    have hb : b < 256 := h b (by simp)
    have hc : c < 256 := h c (by simp)
    have h0 := b64Val_b64Char (a / 4) (by omega)
    have h1 := b64Val_b64Char (a % 4 * 16 + b / 16) (by omega)
    have h2 := b64Val_b64Char (b % 16 * 4 + c / 64) (by omega)
    have h3 := b64Val_b64Char (c % 64) (by omega)
    have n2 := b64Char_ne_pad (b % 16 * 4 + c / 64) (by omega)
    have n3 := b64Char_ne_pad (c % 64) (by omega)
    have ih := b64Decode_encode rest fun x hx => h x (by simp [hx])
    simp only [b64Encode, b64Decode, h0, h1, h2, h3, if_neg n2, if_neg n3, ih]
    simp
    omega

theorem char_toNat_lt (c : Char) : c.toNat < 0x110000 := by
  have h : c.val.toNat.isValidChar := c.valid
  simp only [Nat.isValidChar] at h
  have e : c.toNat = c.val.toNat := rfl
  omega

theorem utf8Char_lt (c : Char) : ∀ b ∈ utf8Char c, b < 256 := by
  intro b hb
  have hc := char_toNat_lt c
  simp only [utf8Char] at hb
  split_ifs at hb <;> simp at hb <;> omega

theorem utf8Bytes_lt : ∀ cs : List Char, ∀ b ∈ utf8Bytes cs, b < 256
  | [], b, hb => by simp [utf8Bytes] at hb
  | c :: cs, b, hb => by
    simp only [utf8Bytes, List.mem_append] at hb
    rcases hb with hb | hb
    · exact utf8Char_lt c b hb
    · exact utf8Bytes_lt cs b hb

theorem utf8Next_encode (c : Char) (rest : List Nat) :
    utf8Next (utf8Char c ++ rest) = some (c, rest) := by
  have hc := char_toNat_lt c
  simp only [utf8Char]
  split_ifs with h1 h2 h3
  · simp [utf8Next, h1]
  · have e : (0xC0 + c.toNat / 64 - 0xC0) * 64 + (0x80 + c.toNat % 64 - 0x80) = c.toNat := by
      omega
    have g1 : ¬ (0xC0 + c.toNat / 64 < 0x80) := by omega
    have g2 : 0xC0 + c.toNat / 64 < 0xE0 := by omega
    simp only [List.cons_append, List.nil_append, utf8Next, if_neg g1, if_pos g2, e,
      Char.ofNat_toNat]
  · have e : (0xE0 + c.toNat / 4096 - 0xE0) * 4096 + (0x80 + c.toNat / 64 % 64 - 0x80) * 64
        + (0x80 + c.toNat % 64 - 0x80) = c.toNat := by omega
    have g1 : ¬ (0xE0 + c.toNat / 4096 < 0x80) := by omega
    have g2 : ¬ (0xE0 + c.toNat / 4096 < 0xE0) := by omega
    have g3 : 0xE0 + c.toNat / 4096 < 0xF0 := by omega
    simp only [List.cons_append, List.nil_append, utf8Next, if_neg g1, if_neg g2, if_pos g3, e,
      Char.ofNat_toNat]
  · have e : (0xF0 + c.toNat / 262144 - 0xF0) * 262144
        + (0x80 + c.toNat / 4096 % 64 - 0x80) * 4096
        + (0x80 + c.toNat / 64 % 64 - 0x80) * 64 + (0x80 + c.toNat % 64 - 0x80)
        = c.toNat := by omega
    have g1 : ¬ (0xF0 + c.toNat / 262144 < 0x80) := by omega
    have g2 : ¬ (0xF0 + c.toNat / 262144 < 0xE0) := by omega
    have g3 : ¬ (0xF0 + c.toNat / 262144 < 0xF0) := by omega
    simp only [List.cons_append, List.nil_append, utf8Next, if_neg g1, if_neg g2, if_neg g3, e,
      Char.ofNat_toNat]

theorem utf8Char_ne_nil (c : Char) : ∃ b bs, utf8Char c = b :: bs := by
  simp only [utf8Char]
  split_ifs <;> exact ⟨_, _, rfl⟩

theorem utf8DecodeAux_encode : ∀ (cs : List Char) (fuel : Nat),
    cs.length ≤ fuel → utf8DecodeAux fuel (utf8Bytes cs) = some cs
  | [], fuel, _ => by cases fuel <;> rfl
  | c :: cs, 0, h => by simp at h
  | c :: cs, fuel + 1, h => by
    obtain ⟨b, bs, hb⟩ := utf8Char_ne_nil c
    have hn := utf8Next_encode c (utf8Bytes cs)
    have ih := utf8DecodeAux_encode cs fuel (by simpa using h)
    simp only [utf8Bytes] at *
    rw [hb, List.cons_append] at *
    simp only [utf8DecodeAux, hn, ih, Option.map_some']

theorem utf8Bytes_length (cs : List Char) : cs.length ≤ (utf8Bytes cs).length := by
  induction cs with
  | nil => simp [utf8Bytes]
  | cons c cs ih =>
    obtain ⟨b, bs, hb⟩ := utf8Char_ne_nil c
    simp only [utf8Bytes, hb, List.length_append, List.length_cons]
    omega

theorem utf8Decode_encode (cs : List Char) : utf8Decode (utf8Bytes cs) = some cs :=
  utf8DecodeAux_encode cs _ (utf8Bytes_length cs)

theorem hexVal_hexDigit : ∀ m, m < 16 → hexVal (hexDigit m) = some m := by decide

theorem char_eq_of_toNat {c : Char} {n : Nat} (h : c.toNat = n) : c = Char.ofNat n := by
  rw [← h, Char.ofNat_toNat]

theorem strNext_escapeChar (c : Char) (rest : List Char) :
    strNext (escapeChar c ++ rest) = some (some c, rest) := by
  unfold escapeChar
  split_ifs with h1 h2 h3 h4 h5 h6 h7 h8
  · subst h1; rfl
  · subst h2; rfl
  · subst h3; rfl
  · subst h4; rfl
  · subst h5; rfl
  · have e1 := hexVal_hexDigit (c.toNat / 16) (by omega)
    have e2 := hexVal_hexDigit (c.toNat % 16) (by omega)
    have e0 : hexVal '0' = some 0 := by decide
    have hn : 0 * 4096 + 0 * 256 + c.toNat / 16 * 16 + c.toNat % 16 = c.toNat := by omega
    have hs : ¬ (0xD800 ≤ c.toNat ∧ c.toNat < 0xE000) := by omega
    simp only [List.cons_append, List.nil_append, strNext, e0, e1, e2, hn, if_neg hs,
      Char.ofNat_toNat]
    simp
  · rw [char_eq_of_toNat h7]; rfl
  · rw [char_eq_of_toNat h8]; rfl
  · simp only [List.cons_append, List.nil_append, strNext, if_neg h1, if_neg h2, if_neg h6]

theorem parseStrAux_escapeChars : ∀ (cs : List Char) (fuel : Nat) (rest : List Char),
    cs.length < fuel → parseStrAux fuel (escapeChars cs ++ '"' :: rest) = some (cs, rest)
  | [], fuel + 1, rest, _ => rfl
  | c :: cs, fuel + 1, rest, h => by
    have ih := parseStrAux_escapeChars cs fuel rest (by simpa using h)
    simp only [escapeChars, List.append_assoc, parseStrAux, strNext_escapeChar, ih,
      Option.map_some']

theorem escapeChar_length (c : Char) : 1 ≤ (escapeChar c).length := by
  unfold escapeChar
  split_ifs <;> simp

theorem escapeChars_length (cs : List Char) : cs.length ≤ (escapeChars cs).length := by
  induction cs with
  | nil => simp [escapeChars]
  | cons c cs ih =>
    have := escapeChar_length c
    simp only [escapeChars, List.length_append, List.length_cons]
    omega

theorem parseStr_escapeChars (cs rest : List Char) :
    parseStr (escapeChars cs ++ '"' :: rest) = some (cs, rest) := by
  apply parseStrAux_escapeChars
  have := escapeChars_length cs
  simp only [List.length_append, List.length_cons]
  omega

/-! ## Numbers -/

theorem digit_isDigit : ∀ d, d < 10 → isDigit (Char.ofNat (48 + d)) = true := by decide

theorem digit_value : ∀ d, d < 10 → (Char.ofNat (48 + d)).toNat - 48 = d := by decide

theorem digit_ne_zero : ∀ d, d < 10 → 0 < d → Char.ofNat (48 + d) ≠ '0' := by decide

theorem digitsVal_append (a : Nat) (xs ys : List Char) :
    digitsVal a (xs ++ ys) = digitsVal (digitsVal a xs) ys := by
  simp [digitsVal, List.foldl_append]

theorem digitsVal_cons (a : Nat) (c : Char) (xs : List Char) :
    digitsVal a (c :: xs) = digitsVal (a * 10 + (c.toNat - 48)) xs := rfl

theorem digitsVal_zeros (a z : Nat) : digitsVal a (List.replicate z '0') = a * 10 ^ z := by
  induction z generalizing a with
  | zero => simp [digitsVal]
  | succ z ih =>
    rw [List.replicate_succ, digitsVal_cons, ih]
    have : ('0' : Char).toNat - 48 = 0 := by decide
    rw [this, Nat.pow_succ]; ring

theorem parseDigits_append : ∀ (xs : List Char) (a k : Nat) (rest : List Char),
    (∀ c ∈ xs, isDigit c = true) →
    parseDigits a k (xs ++ rest) = parseDigits (digitsVal a xs) (k + xs.length) rest
  | [], a, k, rest, _ => by simp [digitsVal]
  | x :: xs, a, k, rest, h => by
    have hx := h x (List.mem_cons_self _ _)
    have ih := parseDigits_append xs (a * 10 + (x.toNat - 48)) (k + 1) rest
      fun c hc => h c (List.mem_cons_of_mem _ hc)
    have e : k + 1 + xs.length = k + (xs.length + 1) := by omega
    rw [e] at ih
    simp only [List.cons_append, parseDigits, hx, if_true, digitsVal_cons, List.length_cons]
    exact ih

theorem parseDigits_stop (a k : Nat) (rest : List Char)
    (h : ∀ c, rest.head? = some c → isDigit c = false) : parseDigits a k rest = (a, k, rest) := by
  cases rest with
  | nil => rfl
  | cons c cs => simp [parseDigits, h c rfl]

theorem decimalAux_spec : ∀ (fuel n : Nat) (acc : List Char), n < fuel →
    ∃ d ds, decimalAux fuel n acc = d :: ds ++ acc ∧ isDigit d = true ∧
      (∀ c ∈ ds, isDigit c = true) ∧ (0 < n → d ≠ '0') ∧ (n = 0 → d = '0' ∧ ds = []) ∧
      ∀ a, digitsVal a (d :: ds) = a * 10 ^ (ds.length + 1) + n
  | fuel + 1, n, acc, h => by
    by_cases hn : n < 10
    · refine ⟨Char.ofNat (48 + n), [], by simp [decimalAux, hn], digit_isDigit n hn,
        by simp, fun h0 => digit_ne_zero n hn h0, ?_, ?_⟩
      · intro h0; subst h0; exact ⟨rfl, rfl⟩
      · intro a
        simp [digitsVal, digit_value n hn]
    · have hlt : n / 10 < fuel := by omega
      obtain ⟨d, ds, he, hd, hds, hnz, _, hv⟩ :=
        decimalAux_spec fuel (n / 10) (Char.ofNat (48 + n % 10) :: acc) hlt
      have hm : n % 10 < 10 := Nat.mod_lt _ (by decide)
      refine ⟨d, ds ++ [Char.ofNat (48 + n % 10)], ?_, hd, ?_, ?_, ?_, ?_⟩
      · simp [decimalAux, hn, he]
      · intro c hc
        rcases List.mem_append.mp hc with hc | hc
        · exact hds c hc
        · simp at hc; rw [hc]; exact digit_isDigit _ hm
      · intro _; exact hnz (by omega)
      · intro h0; omega
      · intro a
        have := hv a
        rw [← List.cons_append, digitsVal_append, this]
        simp only [digitsVal, List.foldl_cons, List.foldl_nil, digit_value _ hm,
          List.length_append, List.length_cons, List.length_nil]
        have e : 10 ^ (ds.length + 0 + 1 + 1) = 10 ^ (ds.length + 1) * 10 := by
          rw [Nat.pow_succ]
        rw [e]
        generalize 10 ^ (ds.length + 1) = X
        have : a * (X * 10) = a * X * 10 := by ring
        omega

theorem decimal_spec (n : Nat) :
    ∃ d ds, decimal n = d :: ds ∧ isDigit d = true ∧ (∀ c ∈ ds, isDigit c = true) ∧
      (0 < n → d ≠ '0') ∧ (n = 0 → d = '0' ∧ ds = []) ∧
      ∀ a, digitsVal a (d :: ds) = a * 10 ^ (ds.length + 1) + n := by
  obtain ⟨d, ds, he, h⟩ := decimalAux_spec (n + 1) n [] (by omega)
  exact ⟨d, ds, by simpa [decimal] using he, h⟩

theorem decimal_digits (n : Nat) : ∀ c ∈ decimal n, isDigit c = true := by
  obtain ⟨d, ds, he, hd, hds, _⟩ := decimal_spec n
  intro c hc
  rw [he] at hc
  rcases List.mem_cons.mp hc with h | h
  · rw [h]; exact hd
  · exact hds c h

theorem digitsVal_decimal (a n : Nat) :
    digitsVal a (decimal n) = a * 10 ^ (decimal n).length + n := by
  obtain ⟨d, ds, he, _, _, _, _, hv⟩ := decimal_spec n
  rw [he]; exact hv a

theorem normalize_spec : ∀ (fuel m : Nat) (e : Int), m < fuel →
    (m = 0 → normalize fuel m e = (0, 0)) ∧
    (0 < m → 0 < (normalize fuel m e).1 ∧ (normalize fuel m e).1 % 10 ≠ 0 ∧
      e ≤ (normalize fuel m e).2 ∧
      m = (normalize fuel m e).1 * 10 ^ ((normalize fuel m e).2 - e).toNat)
  | fuel + 1, m, e, h => by
    constructor
    · intro h0; simp [normalize, h0]
    · intro hpos
      have hne : m ≠ 0 := by omega
      by_cases h10 : m % 10 = 0
      · have ih := (normalize_spec fuel (m / 10) (e + 1) (by omega)).2 (by omega)
        obtain ⟨i1, i2, i3, i4⟩ := ih
        simp only [normalize, if_neg hne, if_pos h10]
        refine ⟨i1, i2, by omega, ?_⟩
        have hk : ((normalize fuel (m / 10) (e + 1)).2 - e).toNat
            = ((normalize fuel (m / 10) (e + 1)).2 - (e + 1)).toNat + 1 := by omega
        rw [hk, Nat.pow_succ, ← Nat.mul_assoc, ← i4]
        omega
      · simp only [normalize, if_neg hne, if_neg h10]
        exact ⟨hpos, h10, le_refl _, by simp⟩

theorem shortest_zero (e : Int) : shortest 0 e = (0, 0) := by
  simp [shortest, normalize]

theorem shortest_canonical {m : Nat} (hpos : 0 < m) (h10 : m % 10 ≠ 0) (e : Int) :
    shortest m e = (m, e) := by
  have hne : m ≠ 0 := by omega
  simp [shortest, normalize, hne, h10]

theorem normalize_pow : ∀ (j fuel m : Nat) (e : Int), 0 < m → m % 10 ≠ 0 →
    m * 10 ^ j < fuel → normalize fuel (m * 10 ^ j) e = (m, e + j)
  | 0, fuel + 1, m, e, hpos, h10, _ => by
    have hne : m ≠ 0 := by omega
    simp [normalize, hne, h10]
  | j + 1, fuel + 1, m, e, hpos, h10, hf => by
    have hp : 0 < 10 ^ j := Nat.pow_pos (by decide)
    have hne : m * 10 ^ (j + 1) ≠ 0 := by
      rw [Nat.pow_succ, ← Nat.mul_assoc]
      have : 0 < m * 10 ^ j := Nat.mul_pos hpos hp
      omega
    have hmod : m * 10 ^ (j + 1) % 10 = 0 := by
      rw [Nat.pow_succ, ← Nat.mul_assoc]; exact Nat.mul_mod_left _ _
    have hdiv : m * 10 ^ (j + 1) / 10 = m * 10 ^ j := by
      rw [Nat.pow_succ, ← Nat.mul_assoc]; exact Nat.mul_div_cancel _ (by decide)
    have hlt : m * 10 ^ j < fuel := by
      have : m * 10 ^ (j + 1) = m * 10 ^ j * 10 := by rw [Nat.pow_succ, Nat.mul_assoc]
      have : 0 < m * 10 ^ j := Nat.mul_pos hpos hp
      omega
    simp only [normalize, if_neg hne, if_pos hmod, hdiv]
    rw [normalize_pow j fuel m (e + 1) hpos h10 hlt]
    congr 1; push_cast; ring

theorem shortest_pow {m : Nat} (hpos : 0 < m) (h10 : m % 10 ≠ 0) (j : Nat) (e : Int) :
    shortest (m * 10 ^ j) e = (m, e + j) :=
  normalize_pow j _ m e hpos h10 (by omega)

theorem shortest_spec (m : Nat) (e : Int) :
    (m = 0 → shortest m e = (0, 0)) ∧
    (0 < m → 0 < (shortest m e).1 ∧ (shortest m e).1 % 10 ≠ 0 ∧ e ≤ (shortest m e).2 ∧
      m = (shortest m e).1 * 10 ^ ((shortest m e).2 - e).toNat) :=
  normalize_spec (m + 1) m e (by omega)

theorem stops_head {rest : List Char} (h : stops rest = true) :
    ∀ c, rest.head? = some c → c = ',' ∨ c = ']' ∨ c = '}' := by
  intro c hc
  cases rest with
  | nil => simp at hc
  | cons x xs =>
    simp only [List.head?_cons, Option.some.injEq] at hc
    subst hc
    simp only [stops, Bool.or_eq_true, decide_eq_true_eq] at h
    rcases h with (h | h) | h
    · exact Or.inl h
    · exact Or.inr (Or.inl h)
    · exact Or.inr (Or.inr h)

theorem stops_not_digit {rest : List Char} (h : stops rest = true) :
    ∀ c, rest.head? = some c → isDigit c = false := by
  intro c hc
  rcases stops_head h c hc with h | h | h <;> subst h <;> decide

theorem isDigit_ne {d : Char} (hd : isDigit d = true) (c : Char) (hc : isDigit c = false) :
    d ≠ c := by
  intro h; subst h; rw [hd] at hc; cases hc

theorem isDigit_not_ws {d : Char} (hd : isDigit d = true) : isWs d = false := by
  have h1 := isDigit_ne hd ' ' (by decide)
  have h2 := isDigit_ne hd '\t' (by decide)
  have h3 := isDigit_ne hd '\n' (by decide)
  have h4 := isDigit_ne hd '\r' (by decide)
  simp [isWs, h1, h2, h3, h4]

theorem parseInt_digits (d : Char) (ds rest : List Char) (hd : isDigit d = true)
    (hds : ∀ c ∈ ds, isDigit c = true) (hz : d ≠ '0' ∨ ds = [])
    (hr : ∀ c, rest.head? = some c → isDigit c = false) :
    parseInt (d :: ds ++ rest) = some (digitsVal 0 (d :: ds), rest) := by
  have hall : ∀ c ∈ d :: ds, isDigit c = true := by
    intro c hc
    rcases List.mem_cons.mp hc with h | h
    · rw [h]; exact hd
    · exact hds c h
  have hp := parseDigits_append (d :: ds) 0 0 rest hall
  rw [parseDigits_stop _ _ rest hr] at hp
  by_cases h0 : d = '0'
  · have hnil : ds = [] := by
      rcases hz with h | h
      · exact absurd h0 h
      · exact h
    subst hnil; subst h0
    cases rest with
    | nil => rfl
    | cons r rs =>
      have := hr r rfl
      simp [parseInt, this, digitsVal]
      decide
  · simp only [List.cons_append] at hp
    simp only [parseInt, List.cons_append, hd, if_true, if_neg h0, hp]

theorem parseFrac_digits (a : Nat) (y : Char) (ys rest : List Char) (hy : isDigit y = true)
    (hys : ∀ c ∈ ys, isDigit c = true)
    (hr : ∀ c, rest.head? = some c → isDigit c = false) :
    parseFrac a ('.' :: (y :: ys ++ rest)) = some (digitsVal a (y :: ys), ys.length + 1, rest) := by
  have hall : ∀ c ∈ y :: ys, isDigit c = true := by
    intro c hc
    rcases List.mem_cons.mp hc with h | h
    · rw [h]; exact hy
    · exact hys c h
  have hp := parseDigits_append (y :: ys) a 0 rest hall
  rw [parseDigits_stop _ _ rest hr] at hp
  simp only [List.cons_append, List.length_cons, Nat.zero_add] at hp
  simp only [parseFrac, List.cons_append, hy, if_true, hp]

theorem parseFrac_none (a : Nat) (rest : List Char) (h : rest.head? ≠ some '.') :
    parseFrac a rest = some (a, 0, rest) := by
  cases rest with
  | nil => rfl
  | cons c cs =>
    have hc : c ≠ '.' := by simpa using h
    simp [parseFrac, hc]

theorem parseExp_none (rest : List Char) (h1 : rest.head? ≠ some 'e')
    (h2 : rest.head? ≠ some 'E') : parseExp rest = some (0, rest) := by
  cases rest with
  | nil => rfl
  | cons c cs =>
    have hc1 : c ≠ 'e' := by simpa using h1
    have hc2 : c ≠ 'E' := by simpa using h2
    simp [parseExp, hc1, hc2]

theorem parseExpDigits_decimal (negE : Bool) (x : Nat) (rest : List Char)
    (hr : ∀ c, rest.head? = some c → isDigit c = false) :
    parseExpDigits negE (decimal x ++ rest)
      = some (if negE then -(x : Int) else (x : Int), rest) := by
  obtain ⟨d, ds, he, hd, hds, _, _, hv⟩ := decimal_spec x
  have hp := parseDigits_append (decimal x) 0 0 rest (decimal_digits x)
  rw [parseDigits_stop _ _ rest hr, digitsVal_decimal] at hp
  simp only [Nat.zero_mul, Nat.zero_add] at hp
  rw [he] at hp ⊢
  simp only [List.cons_append] at hp ⊢
  simp only [parseExpDigits, hd, if_true, hp]

theorem parseExp_neg (x : Nat) (rest : List Char)
    (hr : ∀ c, rest.head? = some c → isDigit c = false) :
    parseExp ('e' :: '-' :: (decimal x ++ rest)) = some (-(x : Int), rest) := by
  have := parseExpDigits_decimal true x rest hr
  simp [parseExp, this]

theorem parseExp_pos (x : Nat) (rest : List Char)
    (hr : ∀ c, rest.head? = some c → isDigit c = false) :
    parseExp ('e' :: '+' :: (decimal x ++ rest)) = some ((x : Int), rest) := by
  have := parseExpDigits_decimal false x rest hr
  simp [parseExp, this]

theorem stops_not_dot {rest : List Char} (h : stops rest = true) : rest.head? ≠ some '.' := by
  intro hc
  rcases stops_head h _ hc with h | h | h <;> exact absurd h (by decide)

theorem stops_not_e {rest : List Char} (h : stops rest = true) : rest.head? ≠ some 'e' := by
  intro hc
  rcases stops_head h _ hc with h | h | h <;> exact absurd h (by decide)

theorem stops_not_E {rest : List Char} (h : stops rest = true) : rest.head? ≠ some 'E' := by
  intro hc
  rcases stops_head h _ hc with h | h | h <;> exact absurd h (by decide)

/-- An integer numeral. -/
theorem parseUnsigned_int (d : Char) (ds rest : List Char) (hd : isDigit d = true)
    (hds : ∀ c ∈ ds, isDigit c = true) (hz : d ≠ '0' ∨ ds = []) (hr : stops rest = true) :
    parseUnsigned (d :: ds ++ rest) = some (shortest (digitsVal 0 (d :: ds)) 0, rest) := by
  have h1 := parseInt_digits d ds rest hd hds hz (stops_not_digit hr)
  simp only [parseUnsigned, h1, parseFrac_none _ rest (stops_not_dot hr),
    parseExp_none rest (stops_not_e hr) (stops_not_E hr)]
  simp

/-- A numeral with a fraction. -/
theorem parseUnsigned_frac (d : Char) (ds : List Char) (y : Char) (ys rest : List Char)
    (hd : isDigit d = true) (hds : ∀ c ∈ ds, isDigit c = true) (hz : d ≠ '0' ∨ ds = [])
    (hy : isDigit y = true) (hys : ∀ c ∈ ys, isDigit c = true) (hr : stops rest = true) :
    parseUnsigned (d :: ds ++ '.' :: (y :: ys ++ rest))
      = some (shortest (digitsVal 0 (d :: ds ++ y :: ys)) (-((ys.length + 1 : Nat) : Int)),
          rest) := by
  have h1 := parseInt_digits d ds ('.' :: (y :: ys ++ rest)) hd hds hz
    (by intro c hc; simp at hc; subst hc; decide)
  have h2 := parseFrac_digits (digitsVal 0 (d :: ds)) y ys rest hy hys (stops_not_digit hr)
  simp only [parseUnsigned, h1, h2, parseExp_none rest (stops_not_e hr) (stops_not_E hr)]
  rw [digitsVal_append]
  simp

/-- A numeral with an exponent and no fraction. -/
theorem parseUnsigned_exp (d : Char) (neg : Bool) (x : Nat) (rest : List Char)
    (hd : isDigit d = true) (hr : stops rest = true) :
    parseUnsigned (d :: 'e' :: (if neg then '-' else '+') :: (decimal x ++ rest))
      = some (shortest (digitsVal 0 [d]) (if neg then -(x : Int) else (x : Int)), rest) := by
  have h1 := parseInt_digits d [] ('e' :: (if neg then '-' else '+') :: (decimal x ++ rest))
    hd (by simp) (Or.inr rfl) (by intro c hc; simp at hc; subst hc; decide)
  simp only [List.cons_append, List.nil_append] at h1
  have h2 := parseFrac_none (digitsVal 0 [d])
    ('e' :: (if neg then '-' else '+') :: (decimal x ++ rest)) (by simp)
  cases neg with
  | true =>
    simp only [if_true, Bool.true_eq_false, if_false] at h1 h2 ⊢
    simp only [parseUnsigned, h1, h2, parseExp_neg x rest (stops_not_digit hr)]
    simp
  | false =>
    simp only [Bool.false_eq_true, if_false] at h1 h2 ⊢
    simp only [parseUnsigned, h1, h2, parseExp_pos x rest (stops_not_digit hr)]
    simp

/-- A numeral with a fraction and an exponent. -/
theorem parseUnsigned_frac_exp (d y : Char) (ys : List Char) (neg : Bool) (x : Nat)
    (rest : List Char) (hd : isDigit d = true) (hy : isDigit y = true)
    (hys : ∀ c ∈ ys, isDigit c = true) (hr : stops rest = true) :
    parseUnsigned (d :: '.' :: (y :: ys ++ 'e' :: (if neg then '-' else '+')
        :: (decimal x ++ rest)))
      = some (shortest (digitsVal 0 (d :: y :: ys))
          ((if neg then -(x : Int) else (x : Int)) - ((ys.length + 1 : Nat) : Int)), rest) := by
  have h1 := parseInt_digits d [] ('.' :: (y :: ys ++ 'e' :: (if neg then '-' else '+')
    :: (decimal x ++ rest))) hd (by simp) (Or.inr rfl)
    (by intro c hc; simp at hc; subst hc; decide)
  simp only [List.cons_append, List.nil_append] at h1
  have h2 := parseFrac_digits (digitsVal 0 [d]) y ys
    ('e' :: (if neg then '-' else '+') :: (decimal x ++ rest)) hy hys
    (by intro c hc; simp at hc; subst hc; decide)
  simp only [List.cons_append] at h2
  have hv : digitsVal (digitsVal 0 [d]) (y :: ys) = digitsVal 0 (d :: y :: ys) := rfl
  cases neg with
  | true =>
    simp only [if_true, Bool.true_eq_false, if_false] at h1 h2 ⊢
    simp only [parseUnsigned, List.cons_append, h1, h2,
      parseExp_neg x rest (stops_not_digit hr), hv]
  | false =>
    simp only [Bool.false_eq_true, if_false] at h1 h2 ⊢
    simp only [parseUnsigned, List.cons_append, h1, h2,
      parseExp_pos x rest (stops_not_digit hr), hv]

/-! ## The four replacements -/

theorem replaceFrom_of_not_occurs (old new : List Char) :
    ∀ s : List Char, occurs old s = false → replaceFrom old new 0 s = s
  | [], _ => rfl
  | c :: cs, h => by
    simp only [occurs, Bool.or_eq_false_iff] at h
    simp [replaceFrom, h.1, replaceFrom_of_not_occurs old new cs h.2]

theorem isPrefixOf_append_plain (c : Char) (rest : List Char) :
    ∀ (old t0 : List Char), c ∉ old →
      old.isPrefixOf (t0 ++ c :: rest) = old.isPrefixOf t0
  | [], t0, _ => by simp [List.isPrefixOf]
  | o :: os, [], h => by
    have : (o == c) = false := beq_eq_false_iff_ne.mpr fun e => h (by simp [e])
    simp [List.isPrefixOf, this]
  | o :: os, x :: xs, h => by
    have ih := isPrefixOf_append_plain c rest os xs fun hm => h (List.mem_cons_of_mem _ hm)
    simp [List.isPrefixOf, ih]

theorem isPrefixOf_length {old s : List Char} (h : old.isPrefixOf s = true) :
    old.length ≤ s.length :=
  (List.isPrefixOf_iff_prefix.mp h).length_le

/-- The scan treats the text before and after a character that is not in `old` separately. -/
theorem replaceFrom_split (old new : List Char) (c : Char) (rest : List Char)
    (hne : old ≠ []) (hc : c ∉ old) :
    ∀ (t0 : List Char) (k : Nat), k ≤ t0.length →
      replaceFrom old new k (t0 ++ c :: rest)
        = replaceFrom old new k t0 ++ c :: replaceFrom old new 0 rest
  | [], k, hk => by
    have hk0 : k = 0 := by simpa using hk
    subst hk0
    have h1 := isPrefixOf_append_plain c rest old [] hc
    have h2 : old.isPrefixOf ([] : List Char) = false := by
      cases old with
      | nil => exact absurd rfl hne
      | cons o os => rfl
    simp only [List.nil_append] at h1
    simp [replaceFrom, h1, h2]
  | x :: xs, k + 1, hk => by
    have := replaceFrom_split old new c rest hne hc xs k (by simpa using hk)
    simpa [replaceFrom] using this
  | x :: xs, 0, _ => by
    have h1 := isPrefixOf_append_plain c rest old (x :: xs) hc
    cases hb : old.isPrefixOf (x :: xs) with
    | true =>
      have hl := isPrefixOf_length hb
      have ih := replaceFrom_split old new c rest hne hc xs (old.length - 1)
        (by simp at hl; omega)
      rw [hb] at h1
      simp only [List.cons_append] at h1 ⊢
      simp only [replaceFrom, h1, hb, if_true, ih, List.append_assoc]
    | false =>
      have ih := replaceFrom_split old new c rest hne hc xs 0 (Nat.zero_le _)
      rw [hb] at h1
      simp only [List.cons_append] at h1 ⊢
      simp [replaceFrom, h1, hb, ih]

theorem replace4_nil : replace4 [] = [] := rfl

theorem plain_not_mem {c : Char} (h : plain c = true) :
    c ∉ ['"', '{', '{'] ∧ c ∉ ['}', '}', '"'] ∧ c ∉ ['{', '{', '{'] ∧ c ∉ ['}', '}', '}'] := by
  simp only [plain, Bool.and_eq_true, bne_iff_ne, ne_eq] at h
  obtain ⟨⟨h1, h2⟩, h3⟩ := h
  simp [h1, h2, h3]

/-- The four replacements treat the text before and after a plain character separately. -/
theorem replace4_split (t0 : List Char) (c : Char) (rest : List Char) (h : plain c = true) :
    replace4 (t0 ++ c :: rest) = replace4 t0 ++ c :: replace4 rest := by
  obtain ⟨h1, h2, h3, h4⟩ := plain_not_mem h
  simp only [replace4]
  rw [replaceFrom_split _ _ c rest (by simp) h1 t0 0 (Nat.zero_le _),
    replaceFrom_split _ _ c _ (by simp) h2 _ 0 (Nat.zero_le _),
    replaceFrom_split _ _ c _ (by simp) h3 _ 0 (Nat.zero_le _),
    replaceFrom_split _ _ c _ (by simp) h4 _ 0 (Nat.zero_le _)]

theorem replace4_of_patternFree (s : List Char) (h : patternFree s = true) : replace4 s = s := by
  simp only [patternFree, Bool.and_eq_true, Bool.not_eq_true'] at h
  obtain ⟨⟨⟨h1, h2⟩, h3⟩, h4⟩ := h
  simp only [replace4]
  rw [replaceFrom_of_not_occurs _ _ s h1, replaceFrom_of_not_occurs _ _ s h2,
    replaceFrom_of_not_occurs _ _ s h3, replaceFrom_of_not_occurs _ _ s h4]

/-- In front of a text with which no occurrence of `old` can begin inside `x`, the scan
copies `x`. -/
theorem replaceFrom_pass (old new rest : List Char) :
    ∀ x : List Char, (∀ s, s ≠ [] → s <:+ x → old.isPrefixOf (s ++ rest) = false) →
      replaceFrom old new 0 (x ++ rest) = x ++ replaceFrom old new 0 rest
  | [], _ => rfl
  | a :: xs, h => by
    have h0 := h (a :: xs) (by simp) (List.suffix_refl _)
    have ih := replaceFrom_pass old new rest xs fun s hs hsuf =>
      h s hs (hsuf.trans (List.suffix_cons a xs))
    simp only [List.cons_append] at h0 ⊢
    simp [replaceFrom, h0, ih]

theorem occurs_of_suffix (old : List Char) :
    ∀ (x s : List Char), s <:+ x → old.isPrefixOf s = true → occurs old x = true
  | [], s, hs, hp => by
    have : s = [] := List.suffix_nil.mp hs
    subst this
    simpa [occurs] using hp
  | a :: xs, s, hs, hp => by
    rcases List.suffix_cons_iff.mp hs with h | h
    · subst h
      simp [occurs, hp]
    · simp [occurs, occurs_of_suffix old xs s h hp]

theorem isPrefixOf_append_of_le {old s : List Char} (rest : List Char)
    (h : old.length ≤ s.length) : old.isPrefixOf (s ++ rest) = old.isPrefixOf s := by
  induction old generalizing s with
  | nil => simp [List.isPrefixOf]
  | cons o os ih =>
    cases s with
    | nil => simp at h
    | cons a as =>
      have := ih (s := as) (by simpa using h)
      simp [List.isPrefixOf, this]

/-- Only the short ends of `x` need a look at what follows. -/
theorem clear_of_short {old x rest : List Char} (hocc : occurs old x = false)
    (hshort : ∀ s, s ≠ [] → s <:+ x → s.length < old.length →
      old.isPrefixOf (s ++ rest) = false) :
    ∀ s, s ≠ [] → s <:+ x → old.isPrefixOf (s ++ rest) = false := by
  intro s hs hsuf
  by_cases hl : s.length < old.length
  · exact hshort s hs hsuf hl
  · rw [isPrefixOf_append_of_le rest (by omega)]
    cases hb : old.isPrefixOf s with
    | false => rfl
    | true => rw [occurs_of_suffix old x s hsuf hb] at hocc; cases hocc

/-- What follows starts with a character that is not in `old`. -/
theorem replaceFrom_pass_head (old new x : List Char) (r : Char) (rs : List Char)
    (hocc : occurs old x = false) (hr : r ∉ old) :
    replaceFrom old new 0 (x ++ r :: rs) = x ++ replaceFrom old new 0 (r :: rs) := by
  apply replaceFrom_pass
  apply clear_of_short hocc
  intro s _ _ hl
  rw [isPrefixOf_append_plain r rs old s hr]
  cases hb : old.isPrefixOf s with
  | false => rfl
  | true => have := isPrefixOf_length hb; omega

theorem getLast?_of_suffix {s x : List Char} (hs : s ≠ []) (h : s <:+ x) :
    x.getLast? = s.getLast? := by
  obtain ⟨pre, rfl⟩ := h
  exact List.getLast?_append_of_ne_nil pre hs

/-- The text `x` ends with a character that is not in `old`. -/
theorem replaceFrom_pass_last (old new x rest : List Char)
    (hocc : occurs old x = false) (hl : ∀ c, x.getLast? = some c → c ∉ old) :
    replaceFrom old new 0 (x ++ rest) = x ++ replaceFrom old new 0 rest := by
  apply replaceFrom_pass
  apply clear_of_short hocc
  intro s hs hsuf hlen
  cases hb : old.isPrefixOf (s ++ rest) with
  | false => rfl
  | true =>
    exfalso
    have h1 : old <+: s ++ rest := List.isPrefixOf_iff_prefix.mp hb
    have h2 : s <+: old :=
      List.prefix_of_prefix_length_le (List.prefix_append s rest) h1 (by omega)
    obtain ⟨c, hc⟩ : ∃ c, s.getLast? = some c := by
      cases hg : s.getLast? with
      | none => exact absurd (List.getLast?_eq_none_iff.mp hg) hs
      | some c => exact ⟨c, rfl⟩
    have hmem : c ∈ s := List.mem_of_getLast?_eq_some hc
    exact hl c (by rw [getLast?_of_suffix hs hsuf]; exact hc) (h2.subset hmem)

/-- The second replacement in front of two closing braces. -/
theorem replaceFrom_pass_second_stage (x rs : List Char)
    (hocc : occurs ['}', '}', '"'] x = false) :
    replaceFrom ['}', '}', '"'] ['}', '}'] 0 (x ++ '}' :: '}' :: rs)
      = x ++ replaceFrom ['}', '}', '"'] ['}', '}'] 0 ('}' :: '}' :: rs) := by
  apply replaceFrom_pass
  apply clear_of_short hocc
  intro s hs _ hlen
  match s, hs, hlen with
  | [a], _, _ => simp [List.isPrefixOf]
  | [a, b], _, _ => simp [List.isPrefixOf]
  | _ :: _ :: _ :: _, _, h => simp at h; omega

theorem sentinelFree_parts {x : List Char} (h : sentinelFree x = true) :
    occurs ['"', '{', '{'] x = false ∧ occurs ['}', '}', '"'] x = false ∧
    occurs ['{', '{', '{'] x = false ∧ occurs ['}', '}', '}'] x = false ∧
    ∀ c, x.getLast? = some c → c ∉ ['}', '}', '}'] := by
  simp only [sentinelFree, patternFree, Bool.and_eq_true, Bool.not_eq_true', bne_iff_ne,
    ne_eq] at h
  obtain ⟨⟨⟨⟨h1, h2⟩, h3⟩, h4⟩, h5⟩ := h
  refine ⟨h1, h2, h3, h4, ?_⟩
  intro c hc hmem
  have : c = '}' := by simpa using hmem
  subst this
  exact h5 hc

theorem replace4_quoted_directive (p e : List Char) (hp : sentinelFree p = true)
    (he : sentinelFree e = true) :
    replace4 ('"' :: '{' :: '{' :: ' ' :: 'k' :: 'e' :: 'y' :: 'O' :: 'r' :: 'D' :: 'e'
        :: 'f' :: 'a' :: 'u' :: 'l' :: 't' :: ' ' :: '{' :: '{' :: '{' :: (p ++ '}' :: '}' :: '}'
        :: ' ' :: '{' :: '{' :: '{' :: (e ++ ['}', '}', '}', ' ', '}', '}', '"'])))
      = '{' :: '{' :: ' ' :: 'k' :: 'e' :: 'y' :: 'O' :: 'r' :: 'D' :: 'e'
        :: 'f' :: 'a' :: 'u' :: 'l' :: 't' :: ' ' :: '"' :: (p ++ '"'
        :: ' ' :: '"' :: (e ++ ['"', ' ', '}', '}'])) := by
  obtain ⟨p1, p2, p3, p4, p5⟩ := sentinelFree_parts hp
  obtain ⟨e1, e2, e3, e4, e5⟩ := sentinelFree_parts he
  have a2 := fun rs => replaceFrom_pass_head ['"', '{', '{'] ['{', '{'] p '}' rs p1 (by simp)
  have a3 := fun rs => replaceFrom_pass_head ['"', '{', '{'] ['{', '{'] e '}' rs e1 (by simp)
  have b2 := fun rs => replaceFrom_pass_second_stage p rs p2
  have b3 := fun rs => replaceFrom_pass_second_stage e rs e2
  have c2 := fun rs => replaceFrom_pass_head ['{', '{', '{'] ['"'] p '}' rs p3 (by simp)
  have c3 := fun rs => replaceFrom_pass_head ['{', '{', '{'] ['"'] e '}' rs e3 (by simp)
  have d2 := fun rest => replaceFrom_pass_last ['}', '}', '}'] ['"'] p rest p4 p5
  have d3 := fun rest => replaceFrom_pass_last ['}', '}', '}'] ['"'] e rest e4 e5
  have s1 : replaceFrom ['"', '{', '{'] ['{', '{'] 0
      ('"' :: '{' :: '{' :: ' ' :: 'k' :: 'e' :: 'y' :: 'O' :: 'r' :: 'D' :: 'e'
        :: 'f' :: 'a' :: 'u' :: 'l' :: 't' :: ' ' :: '{' :: '{' :: '{' :: (p ++ '}' :: '}' :: '}'
        :: ' ' :: '{' :: '{' :: '{' :: (e ++ ['}', '}', '}', ' ', '}', '}', '"'])))
      = '{' :: '{' :: ' ' :: 'k' :: 'e' :: 'y' :: 'O' :: 'r' :: 'D' :: 'e'
        :: 'f' :: 'a' :: 'u' :: 'l' :: 't' :: ' ' :: '{' :: '{' :: '{' :: (p ++ '}' :: '}' :: '}'
        :: ' ' :: '{' :: '{' :: '{' :: (e ++ ['}', '}', '}', ' ', '}', '}', '"'])) := by
    simp [replaceFrom, List.isPrefixOf, a2, a3]
  have s2 : replaceFrom ['}', '}', '"'] ['}', '}'] 0
      ('{' :: '{' :: ' ' :: 'k' :: 'e' :: 'y' :: 'O' :: 'r' :: 'D' :: 'e'
        :: 'f' :: 'a' :: 'u' :: 'l' :: 't' :: ' ' :: '{' :: '{' :: '{' :: (p ++ '}' :: '}' :: '}'
        :: ' ' :: '{' :: '{' :: '{' :: (e ++ ['}', '}', '}', ' ', '}', '}', '"'])))
      = '{' :: '{' :: ' ' :: 'k' :: 'e' :: 'y' :: 'O' :: 'r' :: 'D' :: 'e'
        :: 'f' :: 'a' :: 'u' :: 'l' :: 't' :: ' ' :: '{' :: '{' :: '{' :: (p ++ '}' :: '}' :: '}'
        :: ' ' :: '{' :: '{' :: '{' :: (e ++ ['}', '}', '}', ' ', '}', '}'])) := by
    simp [replaceFrom, List.isPrefixOf, b2, b3]
  have s3 : replaceFrom ['{', '{', '{'] ['"'] 0
      ('{' :: '{' :: ' ' :: 'k' :: 'e' :: 'y' :: 'O' :: 'r' :: 'D' :: 'e'
        :: 'f' :: 'a' :: 'u' :: 'l' :: 't' :: ' ' :: '{' :: '{' :: '{' :: (p ++ '}' :: '}' :: '}'
        :: ' ' :: '{' :: '{' :: '{' :: (e ++ ['}', '}', '}', ' ', '}', '}'])))
      = '{' :: '{' :: ' ' :: 'k' :: 'e' :: 'y' :: 'O' :: 'r' :: 'D' :: 'e'
        :: 'f' :: 'a' :: 'u' :: 'l' :: 't' :: ' ' :: '"' :: (p ++ '}' :: '}' :: '}'
        :: ' ' :: '"' :: (e ++ ['}', '}', '}', ' ', '}', '}'])) := by
    simp [replaceFrom, List.isPrefixOf, c2, c3]
  have s4 : replaceFrom ['}', '}', '}'] ['"'] 0
      ('{' :: '{' :: ' ' :: 'k' :: 'e' :: 'y' :: 'O' :: 'r' :: 'D' :: 'e'
        :: 'f' :: 'a' :: 'u' :: 'l' :: 't' :: ' ' :: '"' :: (p ++ '}' :: '}' :: '}'
        :: ' ' :: '"' :: (e ++ ['}', '}', '}', ' ', '}', '}'])))
      = '{' :: '{' :: ' ' :: 'k' :: 'e' :: 'y' :: 'O' :: 'r' :: 'D' :: 'e'
        :: 'f' :: 'a' :: 'u' :: 'l' :: 't' :: ' ' :: '"' :: (p ++ '"'
        :: ' ' :: '"' :: (e ++ ['"', ' ', '}', '}'])) := by
    simp [replaceFrom, List.isPrefixOf, d2, d3]
  rw [replace4, s1, s2, s3, s4]

theorem replace4_bare_directive (p e : List Char) (hp : sentinelFree p = true)
    (he : sentinelFree e = true) :
    replace4 ('{' :: '{' :: ' ' :: 'k' :: 'e' :: 'y' :: 'O' :: 'r' :: 'D' :: 'e'
        :: 'f' :: 'a' :: 'u' :: 'l' :: 't' :: ' ' :: '{' :: '{' :: '{' :: (p ++ '}' :: '}' :: '}'
        :: ' ' :: '{' :: '{' :: '{' :: (e ++ ['}', '}', '}', ' ', '}', '}'])))
      = '{' :: '{' :: ' ' :: 'k' :: 'e' :: 'y' :: 'O' :: 'r' :: 'D' :: 'e'
        :: 'f' :: 'a' :: 'u' :: 'l' :: 't' :: ' ' :: '"' :: (p ++ '"'
        :: ' ' :: '"' :: (e ++ ['"', ' ', '}', '}'])) := by
  obtain ⟨p1, p2, p3, p4, p5⟩ := sentinelFree_parts hp
  obtain ⟨e1, e2, e3, e4, e5⟩ := sentinelFree_parts he
  have a2 := fun rs => replaceFrom_pass_head ['"', '{', '{'] ['{', '{'] p '}' rs p1 (by simp)
  have a3 := fun rs => replaceFrom_pass_head ['"', '{', '{'] ['{', '{'] e '}' rs e1 (by simp)
  have b2 := fun rs => replaceFrom_pass_second_stage p rs p2
  have b3 := fun rs => replaceFrom_pass_second_stage e rs e2
  have c2 := fun rs => replaceFrom_pass_head ['{', '{', '{'] ['"'] p '}' rs p3 (by simp)
  have c3 := fun rs => replaceFrom_pass_head ['{', '{', '{'] ['"'] e '}' rs e3 (by simp)
  have d2 := fun rest => replaceFrom_pass_last ['}', '}', '}'] ['"'] p rest p4 p5
  have d3 := fun rest => replaceFrom_pass_last ['}', '}', '}'] ['"'] e rest e4 e5
  have s1 : replaceFrom ['"', '{', '{'] ['{', '{'] 0
      ('{' :: '{' :: ' ' :: 'k' :: 'e' :: 'y' :: 'O' :: 'r' :: 'D' :: 'e'
        :: 'f' :: 'a' :: 'u' :: 'l' :: 't' :: ' ' :: '{' :: '{' :: '{' :: (p ++ '}' :: '}' :: '}'
        :: ' ' :: '{' :: '{' :: '{' :: (e ++ ['}', '}', '}', ' ', '}', '}'])))
      = '{' :: '{' :: ' ' :: 'k' :: 'e' :: 'y' :: 'O' :: 'r' :: 'D' :: 'e'
        :: 'f' :: 'a' :: 'u' :: 'l' :: 't' :: ' ' :: '{' :: '{' :: '{' :: (p ++ '}' :: '}' :: '}'
        :: ' ' :: '{' :: '{' :: '{' :: (e ++ ['}', '}', '}', ' ', '}', '}'])) := by
    simp [replaceFrom, List.isPrefixOf, a2, a3]
  have s2 : replaceFrom ['}', '}', '"'] ['}', '}'] 0
      ('{' :: '{' :: ' ' :: 'k' :: 'e' :: 'y' :: 'O' :: 'r' :: 'D' :: 'e'
        :: 'f' :: 'a' :: 'u' :: 'l' :: 't' :: ' ' :: '{' :: '{' :: '{' :: (p ++ '}' :: '}' :: '}'
        :: ' ' :: '{' :: '{' :: '{' :: (e ++ ['}', '}', '}', ' ', '}', '}'])))
      = '{' :: '{' :: ' ' :: 'k' :: 'e' :: 'y' :: 'O' :: 'r' :: 'D' :: 'e'
        :: 'f' :: 'a' :: 'u' :: 'l' :: 't' :: ' ' :: '{' :: '{' :: '{' :: (p ++ '}' :: '}' :: '}'
        :: ' ' :: '{' :: '{' :: '{' :: (e ++ ['}', '}', '}', ' ', '}', '}'])) := by
    simp [replaceFrom, List.isPrefixOf, b2, b3]
  have s3 : replaceFrom ['{', '{', '{'] ['"'] 0
      ('{' :: '{' :: ' ' :: 'k' :: 'e' :: 'y' :: 'O' :: 'r' :: 'D' :: 'e'
        :: 'f' :: 'a' :: 'u' :: 'l' :: 't' :: ' ' :: '{' :: '{' :: '{' :: (p ++ '}' :: '}' :: '}'
        :: ' ' :: '{' :: '{' :: '{' :: (e ++ ['}', '}', '}', ' ', '}', '}'])))
      = '{' :: '{' :: ' ' :: 'k' :: 'e' :: 'y' :: 'O' :: 'r' :: 'D' :: 'e'
        :: 'f' :: 'a' :: 'u' :: 'l' :: 't' :: ' ' :: '"' :: (p ++ '}' :: '}' :: '}'
        :: ' ' :: '"' :: (e ++ ['}', '}', '}', ' ', '}', '}'])) := by
    simp [replaceFrom, List.isPrefixOf, c2, c3]
  have s4 : replaceFrom ['}', '}', '}'] ['"'] 0
      ('{' :: '{' :: ' ' :: 'k' :: 'e' :: 'y' :: 'O' :: 'r' :: 'D' :: 'e'
        :: 'f' :: 'a' :: 'u' :: 'l' :: 't' :: ' ' :: '"' :: (p ++ '}' :: '}' :: '}'
        :: ' ' :: '"' :: (e ++ ['}', '}', '}', ' ', '}', '}'])))
      = '{' :: '{' :: ' ' :: 'k' :: 'e' :: 'y' :: 'O' :: 'r' :: 'D' :: 'e'
        :: 'f' :: 'a' :: 'u' :: 'l' :: 't' :: ' ' :: '"' :: (p ++ '"'
        :: ' ' :: '"' :: (e ++ ['"', ' ', '}', '}'])) := by
    simp [replaceFrom, List.isPrefixOf, d2, d3]
  rw [replace4, s1, s2, s3, s4]

theorem replace4_after_plain_end (t rest : List Char) (ht : endsPlain t = true) :
    replace4 (t ++ rest) = replace4 t ++ replace4 rest := by
  rcases List.eq_nil_or_concat t with h | ⟨t0, c, h⟩
  · subst h; rfl
  · subst h
    have hc : plain c = true := by simpa [endsPlain] using ht
    have h1 := replace4_split t0 c rest hc
    have h2 := replace4_split t0 c [] hc
    rw [replace4_nil] at h2
    simp only [List.concat_eq_append, List.append_assoc, List.singleton_append]
    rw [h1, h2, List.append_assoc, List.singleton_append]

theorem replace4_before_plain_start (x t' : List Char) (ht' : startsPlain t' = true) :
    replace4 (x ++ t') = replace4 x ++ replace4 t' := by
  cases t' with
  | nil => simp [replace4_nil]
  | cons c t0 =>
    have hc : plain c = true := by simpa [startsPlain] using ht'
    have h1 := replace4_split x c t0 hc
    have h2 := replace4_split [] c t0 hc
    rw [replace4_nil] at h2
    simp only [List.nil_append] at h2
    rw [h1, h2]

theorem replace4_in_context (t x t' : List Char) (ht : endsPlain t = true)
    (ht' : startsPlain t' = true) :
    replace4 (t ++ (x ++ t')) = replace4 t ++ (replace4 x ++ replace4 t') := by
  rw [replace4_after_plain_end t _ ht, replace4_before_plain_start x t' ht']

/-- C5 (counterexample). The replacements are plain substring replacements.  For the default
`"a}}"` (the JSON text of the string `a}}`) the second one removes the quote that closes the
default and the fourth eats three of its braces: the result is `{{ keyOrDefault "p" ""a"}} }}`.
For the path `a}` the fourth one closes the path one character early.  And a text outside any
directive is changed where it contains one of the replaced texts: the JSON key `x{{{y` comes
out as `x"y`. -/
theorem replacements_break_on_braces :
    tmplReplace ("\"" ++ directive "p" (encodeString "a\x7d\x7d") ++ "\"")
      = "\x7b\x7b keyOrDefault \"p\" \"\"a\"\x7d\x7d \x7d\x7d" ∧
    tmplReplace ("\"" ++ directive "p" (encodeString "a\x7d\x7d") ++ "\"")
      ≠ "\x7b\x7b keyOrDefault \"p\" \"" ++ String.mk (encodeString "a\x7d\x7d")
          ++ "\" \x7d\x7d" ∧
    tmplReplace ("\"" ++ directive "a\x7d" ['1'] ++ "\"")
      = "\x7b\x7b keyOrDefault \"a\"\x7d \"1\" \x7d\x7d" ∧
    tmplReplace ("\"" ++ directive "a\x7d" ['1'] ++ "\"")
      ≠ "\x7b\x7b keyOrDefault \"a\x7d\" \"1\" \x7d\x7d" ∧
    tmplReplace "\x7b\n  \"x\x7b\x7b\x7by\": 1\n\x7d" = "\x7b\n  \"x\"y\": 1\n\x7d" ∧
    tmplReplace "\x7b\n  \"x\x7b\x7b\x7by\": 1\n\x7d" ≠ "\x7b\n  \"x\x7b\x7b\x7by\": 1\n\x7d" := by
  decide

/-- C5 (amended). Let the path `p` and the encoded default `e` contain none of the four
replaced texts and not end with a closing brace.  Then the four replacements turn the
directive built by `updateValue`, with the serializer's quotes around it or without them,
into `{{ keyOrDefault "p" "e" }}`, whatever text stands before and after it, as long as the
text before is empty or ends with a character other than a quote or a brace and the text
after is empty or starts with such a character; the text before and the text after are
replaced on their own, so several directives in one output are each rendered.  A text in
which none of the four replaced texts occurs is left unchanged. -/
theorem tmplReplace_directive_in_context (t p e t' : String)
    (hp : sentinelFree p.data = true) (he : sentinelFree e.data = true)
    (ht : endsPlain t.data = true) (ht' : startsPlain t'.data = true) :
    tmplReplace (t ++ "\"" ++ directive p e.data ++ "\"" ++ t')
      = tmplReplace t ++ "\x7b\x7b keyOrDefault \"" ++ p ++ "\" \"" ++ e ++ "\" \x7d\x7d"
          ++ tmplReplace t' ∧
    tmplReplace (t ++ directive p e.data ++ t')
      = tmplReplace t ++ "\x7b\x7b keyOrDefault \"" ++ p ++ "\" \"" ++ e ++ "\" \x7d\x7d"
          ++ tmplReplace t' ∧
    ∀ u : String, patternFree u.data = true → tmplReplace u = u := by
  have l0 : ("\"" : String).data = ['"'] := rfl
  have l1 : ("\x7b\x7b keyOrDefault \"" : String).data
      = ['{', '{', ' ', 'k', 'e', 'y', 'O', 'r', 'D', 'e', 'f', 'a', 'u', 'l', 't', ' ', '"'] :=
    rfl
  have l2 : ("\" \"" : String).data = ['"', ' ', '"'] := rfl
  have l3 : ("\" \x7d\x7d" : String).data = ['"', ' ', '}', '}'] := rfl
  refine ⟨?_, ?_, ?_⟩
  · apply String.ext
    simp only [tmplReplace_data, String.data_append, l0, l1, l2, l3]
    have h := replace4_in_context t.data ('"' :: ((directive p e.data).data ++ ['"'])) t'.data
      ht ht'
    have q := replace4_quoted_directive p.data e.data hp he
    rw [directive_data] at h
    simp only [List.cons_append, List.append_assoc, List.nil_append] at h q ⊢
    rw [q] at h
    simp only [directive_data, List.cons_append, List.append_assoc, List.nil_append] at h ⊢
    exact h
  · apply String.ext
    simp only [tmplReplace_data, String.data_append, l1, l2, l3]
    have h := replace4_in_context t.data (directive p e.data).data t'.data ht ht'
    have q := replace4_bare_directive p.data e.data hp he
    rw [directive_data] at h
    simp only [List.cons_append, List.append_assoc, List.nil_append] at h q ⊢
    rw [q] at h
    simp only [directive_data, List.cons_append, List.append_assoc, List.nil_append] at h ⊢
    exact h
  · intro u hu
    apply String.ext
    rw [tmplReplace_data]
    exact replace4_of_patternFree u.data hu

theorem tmplReplace_directive_in_context_witness :
    tmplReplace ("\x7b\n  \"a\": " ++ "\"" ++ directive "svc/a" "[1,\"x\"]".data ++ "\""
        ++ ",\n  \"b\": \"\x7b\x7b keyOrDefault \x7b\x7b\x7bsvc/b\x7d\x7d\x7d \x7b\x7b\x7b2\x7d\x7d\x7d \x7d\x7d\"\n\x7d")
      = tmplReplace "\x7b\n  \"a\": " ++ "\x7b\x7b keyOrDefault \"" ++ "svc/a" ++ "\" \""
          ++ "[1,\"x\"]" ++ "\" \x7d\x7d"
          ++ tmplReplace
            ",\n  \"b\": \"\x7b\x7b keyOrDefault \x7b\x7b\x7bsvc/b\x7d\x7d\x7d \x7b\x7b\x7b2\x7d\x7d\x7d \x7d\x7d\"\n\x7d" ∧
    tmplReplace ("\x7b\n  \"a\": " ++ directive "svc/a" "[1,\"x\"]".data
        ++ ",\n  \"b\": \"\x7b\x7b keyOrDefault \x7b\x7b\x7bsvc/b\x7d\x7d\x7d \x7b\x7b\x7b2\x7d\x7d\x7d \x7d\x7d\"\n\x7d")
      = tmplReplace "\x7b\n  \"a\": " ++ "\x7b\x7b keyOrDefault \"" ++ "svc/a" ++ "\" \""
          ++ "[1,\"x\"]" ++ "\" \x7d\x7d"
          ++ tmplReplace
            ",\n  \"b\": \"\x7b\x7b keyOrDefault \x7b\x7b\x7bsvc/b\x7d\x7d\x7d \x7b\x7b\x7b2\x7d\x7d\x7d \x7d\x7d\"\n\x7d" ∧
    ∀ u : String, patternFree u.data = true → tmplReplace u = u :=
  tmplReplace_directive_in_context "\x7b\n  \"a\": " "svc/a" "[1,\"x\"]"
    ",\n  \"b\": \"\x7b\x7b keyOrDefault \x7b\x7b\x7bsvc/b\x7d\x7d\x7d \x7b\x7b\x7b2\x7d\x7d\x7d \x7d\x7d\"\n\x7d"
    (by decide) (by decide) (by decide) (by decide)

theorem escapeCharsHTML_append (a b : List Char) :
    escapeCharsHTML (a ++ b) = escapeCharsHTML a ++ escapeCharsHTML b := by
  induction a with
  | nil => rfl
  | cons c cs ih => simp [escapeCharsHTML, ih]

theorem jsonString_directive (p : String) (e : List Char) :
    jsonString (directive p e) = '"' :: '{' :: '{' :: ' ' :: 'k' :: 'e' :: 'y' :: 'O' :: 'r'
        :: 'D' :: 'e' :: 'f' :: 'a' :: 'u' :: 'l' :: 't' :: ' ' :: '{' :: '{' :: '{'
        :: (escapeCharsHTML p.data ++ '}' :: '}' :: '}' :: ' ' :: '{' :: '{' :: '{'
        :: (escapeCharsHTML e ++ ['}', '}', '}', ' ', '}', '}', '"'])) := by
  have f1 : escapeCharsHTML ['{', '{', ' ', 'k', 'e', 'y', 'O', 'r', 'D', 'e', 'f', 'a', 'u',
      'l', 't', ' ', '{', '{', '{']
      = ['{', '{', ' ', 'k', 'e', 'y', 'O', 'r', 'D', 'e', 'f', 'a', 'u', 'l', 't', ' ', '{',
        '{', '{'] := by decide
  have f2 : escapeCharsHTML ['}', '}', '}', ' ', '{', '{', '{']
      = ['}', '}', '}', ' ', '{', '{', '{'] := by decide
  have f3 : escapeCharsHTML ['}', '}', '}', ' ', '}', '}'] = ['}', '}', '}', ' ', '}', '}'] := by
    decide
  have hd : (directive p e).data = ['{', '{', ' ', 'k', 'e', 'y', 'O', 'r', 'D', 'e', 'f', 'a',
      'u', 'l', 't', ' ', '{', '{', '{'] ++ (p.data ++ (['}', '}', '}', ' ', '{', '{', '{']
        ++ (e ++ ['}', '}', '}', ' ', '}', '}']))) := by
    rw [directive_data]; rfl
  rw [jsonString, hd]
  simp only [escapeCharsHTML_append, f1, f2, f3]
  simp

/-- C6 (counterexample). The string leaf `x` at `a/c` under the prefix `svc` keeps the quotes
of its JSON text inside the quotes of the argument.  In JSON output, where the directive is
written as a JSON string, the rendered directive is `{{ keyOrDefault "svc/a/c" "\"x\"" }}`;
where the directive is written as it is, it is `{{ keyOrDefault "svc/a/c" ""x"" }}`.  Neither
is the once-quoted `{{ keyOrDefault "svc/a/c" "x" }}`. -/
theorem string_default_keeps_json_quotes :
    updateValue [] "svc" "" [("a", .map [("c", .str "x")])]
      = .ok [⟨"a.c", directive "svc/a/c" ['"', 'x', '"']⟩] ∧
    tmplReplace (String.mk (jsonString (directive "svc/a/c" ['"', 'x', '"'])))
      = "\x7b\x7b keyOrDefault \"svc/a/c\" \"\\\"x\\\"\" \x7d\x7d" ∧
    tmplReplace (directive "svc/a/c" ['"', 'x', '"'])
      = "\x7b\x7b keyOrDefault \"svc/a/c\" \"\"x\"\" \x7d\x7d" ∧
    "\x7b\x7b keyOrDefault \"svc/a/c\" \"\\\"x\\\"\" \x7d\x7d"
      ≠ "\x7b\x7b keyOrDefault \"svc/a/c\" \"x\" \x7d\x7d" ∧
    "\x7b\x7b keyOrDefault \"svc/a/c\" \"\"x\"\" \x7d\x7d"
      ≠ "\x7b\x7b keyOrDefault \"svc/a/c\" \"x\" \x7d\x7d" := by
  decide

/-- C6 (amended). Under a non-empty prefix `P` the directive of a leaf reached through
`k1, ..., kn` holds the path `P/k1/.../kn` and the JSON text `J` of the leaf.  In JSON output
the directive is a JSON string, with the characters of the path and of `J` escaped, and the
four replacements render it as `{{ keyOrDefault "path" "J" }}` with the path and `J` in their
escaped form; where the directive is written as it is, they render it as
`{{ keyOrDefault "P/k1/.../kn" "J" }}`; each on condition that the two arguments, as written,
contain none of the four replaced texts and do not end with a closing brace.  For a string
leaf `s` the text `J` is `s` escaped between its own two quotes, and in JSON output each of
these quotes is written `\"`; for the number `1` the text `J` is `1`. -/
theorem rendered_leaf_directive (sets : List SetCall) (P : String) (T : Tree)
    (h : walkable T = true) (hP : P ≠ "") :
    ∃ added, updateValue sets P "" T = .ok (sets ++ added) ∧
      List.Forall₂ (fun p c =>
          (sentinelFree (escapeCharsHTML ("/".intercalate (P :: p.1)).data) = true →
            sentinelFree (escapeCharsHTML (leafText p.2)) = true →
            tmplReplace (String.mk (jsonString c.value))
              = "\x7b\x7b keyOrDefault \""
                  ++ String.mk (escapeCharsHTML ("/".intercalate (P :: p.1)).data) ++ "\" \""
                  ++ String.mk (escapeCharsHTML (leafText p.2)) ++ "\" \x7d\x7d") ∧
          (sentinelFree ("/".intercalate (P :: p.1)).data = true →
            sentinelFree (leafText p.2) = true →
            tmplReplace c.value
              = "\x7b\x7b keyOrDefault \"" ++ "/".intercalate (P :: p.1) ++ "\" \""
                  ++ String.mk (leafText p.2) ++ "\" \x7d\x7d"))
        (leaves T) added ∧
      (∀ s : String, leafText (.str s) = '"' :: (escapeChars s.data ++ ['"'])) ∧
      (∀ cs : List Char, escapeCharsHTML ('"' :: cs) = '\\' :: '"' :: escapeCharsHTML cs) ∧
      leafText (.num 1) = ['1'] := by
  refine ⟨_, updateValue_ok sets P "" T h, ?_, fun s => rfl, fun cs => rfl, rfl⟩
  rw [List.forall₂_map_right_iff]
  apply List.forall₂_same.mpr
  intro p _
  have l1 : ("\x7b\x7b keyOrDefault \"" : String).data
      = ['{', '{', ' ', 'k', 'e', 'y', 'O', 'r', 'D', 'e', 'f', 'a', 'u', 'l', 't', ' ', '"'] :=
    rfl
  have l2 : ("\" \"" : String).data = ['"', ' ', '"'] := rfl
  have l3 : ("\" \x7d\x7d" : String).data = ['"', ' ', '}', '}'] := rfl
  simp only [callOf, slashPath_of_ne hP]
  constructor
  · intro hp he
    apply String.ext
    rw [tmplReplace_data]
    simp only [String.data_append, l1, l2, l3]
    rw [jsonString_directive, replace4_quoted_directive _ _ hp he]
    simp
  · intro hp he
    apply String.ext
    rw [tmplReplace_data]
    simp only [String.data_append, l1, l2, l3]
    rw [directive_data, replace4_bare_directive _ _ hp he]
    simp

theorem rendered_leaf_directive_witness :
    ∃ added, updateValue [] "svc" "" [("a", .map [("b", .num 1), ("c", .str "x")])]
        = .ok ([] ++ added) ∧
      List.Forall₂ (fun p c =>
          (sentinelFree (escapeCharsHTML ("/".intercalate ("svc" :: p.1)).data) = true →
            sentinelFree (escapeCharsHTML (leafText p.2)) = true →
            tmplReplace (String.mk (jsonString c.value))
              = "\x7b\x7b keyOrDefault \""
                  ++ String.mk (escapeCharsHTML ("/".intercalate ("svc" :: p.1)).data) ++ "\" \""
                  ++ String.mk (escapeCharsHTML (leafText p.2)) ++ "\" \x7d\x7d") ∧
          (sentinelFree ("/".intercalate ("svc" :: p.1)).data = true →
            sentinelFree (leafText p.2) = true →
            tmplReplace c.value
              = "\x7b\x7b keyOrDefault \"" ++ "/".intercalate ("svc" :: p.1) ++ "\" \""
                  ++ String.mk (leafText p.2) ++ "\" \x7d\x7d"))
        (leaves [("a", .map [("b", .num 1), ("c", .str "x")])]) added ∧
      (∀ s : String, leafText (.str s) = '"' :: (escapeChars s.data ++ ['"'])) ∧
      (∀ cs : List Char, escapeCharsHTML ('"' :: cs) = '\\' :: '"' :: escapeCharsHTML cs) ∧
      leafText (.num 1) = ['1'] :=
  rendered_leaf_directive [] "svc" [("a", .map [("b", .num 1), ("c", .str "x")])]
    (by decide) (by decide)

/-! ## Null values -/

theorem not_walkable_of_null {T : Tree} (h : ∃ p ∈ leaves T, p.2 = Value.null) :
    walkable T = false := by
  obtain ⟨p, hp, hn⟩ := h
  cases hw : walkable T with
  | false => rfl
  | true =>
    have := List.all_eq_true.mp hw p hp
    rw [hn] at this
    simp [encodable] at this

/-- C9 (amended). A null map value is not a leaf the traversals handle: on every tree in which
a map entry reached by the traversal holds nil, neither `mapToKVPairs` nor `updateValue`
completes, so no pair and no directive is produced for it.  A null inside a list leaf is
written literally: the leaf `[null]` at key `a` gives the value `W251bGxd`, the base64 text of
`[null]`. -/
theorem null_map_value_aborts (ckv : List consulKVPair) (sets : List SetCall)
    (P key : String) (T : Tree) (h : ∃ p ∈ leaves T, p.2 = Value.null) :
    (∃ e, mapToKVPairs ckv P T = .error e) ∧ (∃ e, updateValue sets P key T = .error e) ∧
    mapToKVPairs [] "" [("a", .list [.null])] = .ok [⟨0, "a", "W251bGxd"⟩] :=
  ⟨mapToKVPairs_error ckv P T (not_walkable_of_null h),
   updateValue_error sets P key T (not_walkable_of_null h), by decide⟩

theorem null_map_value_aborts_witness :
    (∃ e, mapToKVPairs [] "svc" [("a", .num 1), ("b", .map [("c", .null)])] = .error e) ∧
    (∃ e, updateValue [] "svc" "" [("a", .num 1), ("b", .map [("c", .null)])] = .error e) ∧
    mapToKVPairs [] "" [("a", .list [.null])] = .ok [⟨0, "a", "W251bGxd"⟩] :=
  null_map_value_aborts [] [] "svc" "" [("a", .num 1), ("b", .map [("c", .null)])]
    ⟨(["b", "c"], .null), by simp [leaves, leavesV], rfl⟩

/-! ## Reading the JSON text of a value back -/

theorem parseUnsigned_int_list (is rest : List Char) (h1 : is ≠ [])
    (hdig : ∀ c ∈ is, isDigit c = true) (hz : is.head? ≠ some '0' ∨ is.length = 1)
    (hr : stops rest = true) :
    parseUnsigned (is ++ rest) = some (shortest (digitsVal 0 is) 0, rest) := by
  cases is with
  | nil => exact absurd rfl h1
  | cons d ds =>
    refine parseUnsigned_int d ds rest (hdig d (List.mem_cons_self _ _))
      (fun c hc => hdig c (List.mem_cons_of_mem _ hc)) ?_ hr
    rcases hz with h | h
    · left; intro e; exact h (by rw [e]; rfl)
    · right; simpa using h

theorem parseUnsigned_frac_list (is fs rest : List Char) (h1 : is ≠ [])
    (hdig : ∀ c ∈ is, isDigit c = true) (hz : is.head? ≠ some '0' ∨ is.length = 1)
    (h2 : fs ≠ []) (hfd : ∀ c ∈ fs, isDigit c = true) (hr : stops rest = true) :
    parseUnsigned (is ++ '.' :: (fs ++ rest))
      = some (shortest (digitsVal 0 (is ++ fs)) (-(fs.length : Int)), rest) := by
  cases is with
  | nil => exact absurd rfl h1
  | cons d ds =>
    cases fs with
    | nil => exact absurd rfl h2
    | cons y ys =>
      have := parseUnsigned_frac d ds y ys rest (hdig d (List.mem_cons_self _ _))
        (fun c hc => hdig c (List.mem_cons_of_mem _ hc))
        (by
          rcases hz with h | h
          · left; intro e; exact h (by rw [e]; rfl)
          · right; simpa using h)
        (hfd y (List.mem_cons_self _ _)) (fun c hc => hfd c (List.mem_cons_of_mem _ hc)) hr
      rw [this]
      simp

theorem decimal_facts (m : Nat) (hpos : 0 < m) :
    decimal m ≠ [] ∧ (decimal m).head? ≠ some '0' ∧ digitsVal 0 (decimal m) = m := by
  obtain ⟨d, ds, he, _, _, hnz, _, _⟩ := decimal_spec m
  refine ⟨by rw [he]; simp, ?_, by simpa using digitsVal_decimal 0 m⟩
  rw [he]
  intro h
  exact hnz hpos (by simpa using h)

theorem digitsVal_zero_cons (xs : List Char) : digitsVal 0 ('0' :: xs) = digitsVal 0 xs := rfl

theorem parseUnsigned_encodeFloat_canonical (m0 : Nat) (e0 : Int) (hpos : 0 < m0)
    (h10 : m0 % 10 ≠ 0) (rest : List Char) (hr : stops rest = true) :
    parseUnsigned (encodeFloat false m0 e0 ++ rest) = some ((m0, e0), rest) := by
  obtain ⟨hne, hhead, hval⟩ := decimal_facts m0 hpos
  have hdig := decimal_digits m0
  have hm : m0 ≠ 0 := by omega
  have hlen : 0 < (decimal m0).length := List.length_pos.mpr hne
  simp only [encodeFloat, shortest_canonical hpos h10, Bool.false_eq_true, if_false, hm,
    List.nil_append]
  by_cases hE : ((decimal m0).length : Int) + e0 ≤ -6 ∨ 22 ≤ ((decimal m0).length : Int) + e0
  · rw [if_pos hE]
    obtain ⟨d, ds, he, hd, hds, _, _, _⟩ := decimal_spec m0
    rw [he] at hval hE ⊢
    have hsign : (if (((d :: ds).length : Int) + e0 - 1 < 0) then -(((((d :: ds).length : Int)
        + e0 - 1).natAbs : Nat) : Int) else (((((d :: ds).length : Int) + e0 - 1).natAbs : Nat)
        : Int)) = ((d :: ds).length : Int) + e0 - 1 := by
      split <;> omega
    cases ds with
    | nil =>
      have := parseUnsigned_exp d (decide ((([d] : List Char).length : Int) + e0 - 1 < 0))
        ((([d] : List Char).length : Int) + e0 - 1).natAbs rest hd hr
      simp only [decide_eq_true_eq] at this
      rw [hsign, hval] at this
      simp only [List.take, List.drop, if_true, List.cons_append, List.nil_append,
        List.append_assoc]
      rw [this, shortest_canonical hpos h10]
      simp
    | cons y ys =>
      have := parseUnsigned_frac_exp d y ys
        (decide (((d :: y :: ys : List Char).length : Int) + e0 - 1 < 0))
        (((d :: y :: ys : List Char).length : Int) + e0 - 1).natAbs rest hd
        (hds y (List.mem_cons_self _ _)) (fun c hc => hds c (List.mem_cons_of_mem _ hc)) hr
      simp only [decide_eq_true_eq] at this
      rw [hsign, hval] at this
      simp only [List.cons_append] at this
      simp only [List.take, List.drop, List.cons_append, List.nil_append, List.append_assoc,
        reduceCtorEq, if_false]
      rw [this, shortest_canonical hpos h10]
      simp only [List.length_cons]
      congr 2
      push_cast
      ring_nf
  · rw [if_neg hE]
    by_cases h0 : ((decimal m0).length : Int) + e0 ≤ 0
    · rw [if_pos h0]
      have := parseUnsigned_frac_list ['0']
        (List.replicate (-(((decimal m0).length : Int) + e0)).toNat '0' ++ decimal m0) rest
        (by simp) (by simp; decide) (Or.inr rfl) (by simp [hne])
        (by
          intro c hc
          rcases List.mem_append.mp hc with h | h
          · rw [(List.mem_replicate.mp h).2]; decide
          · exact hdig c h) hr
      simp only [List.singleton_append, List.append_assoc, List.cons_append,
        List.nil_append] at this ⊢
      rw [this, digitsVal_zero_cons, digitsVal_append, digitsVal_zeros, Nat.zero_mul, hval]
      have he : -((List.replicate (-(((decimal m0).length : Int) + e0)).toNat '0'
          ++ decimal m0).length : Int) = e0 := by
        simp only [List.length_append, List.length_replicate]
        push_cast
        omega
      rw [he, shortest_canonical hpos h10]
    · rw [if_neg h0]
      by_cases h1 : ((decimal m0).length : Int) + e0 < ((decimal m0).length : Int)
      · rw [if_pos h1]
        have hc : ((((decimal m0).length : Int) + e0).toNat : Int)
            = ((decimal m0).length : Int) + e0 := Int.toNat_of_nonneg (by omega)
        have hk : 0 < (((decimal m0).length : Int) + e0).toNat ∧
            (((decimal m0).length : Int) + e0).toNat < (decimal m0).length := by
          generalize (((decimal m0).length : Int) + e0).toNat = k at hc
          omega
        have := parseUnsigned_frac_list
          ((decimal m0).take (((decimal m0).length : Int) + e0).toNat)
          ((decimal m0).drop (((decimal m0).length : Int) + e0).toNat) rest
          (by
            intro h
            rcases List.take_eq_nil_iff.mp h with h' | h'
            · exact absurd h' (Nat.pos_iff_ne_zero.mp hk.1)
            · exact hne h')
          (fun c hc => hdig c (List.mem_of_mem_take hc))
          (by
            left
            obtain ⟨d, ds, he, _⟩ := decimal_spec m0
            rw [he] at hhead hk ⊢
            obtain ⟨k, hk'⟩ : ∃ k, (((d :: ds).length : Int) + e0).toNat = k + 1 :=
              ⟨(((d :: ds).length : Int) + e0).toNat - 1, by omega⟩
            rw [hk']
            simpa using hhead)
          (fun h => absurd (List.drop_eq_nil_iff.mp h) (Nat.not_le.mpr hk.2))
          (fun c hc => hdig c (List.mem_of_mem_drop hc)) hr
        simp only [List.append_assoc, List.cons_append] at this ⊢
        rw [this, List.take_append_drop, hval]
        have he : -(((decimal m0).drop (((decimal m0).length : Int) + e0).toNat).length : Int)
            = e0 := by
          simp only [List.length_drop]
          omega
        rw [he, shortest_canonical hpos h10]
      · rw [if_neg h1]
        have := parseUnsigned_int_list
          (decimal m0 ++ List.replicate
            (((decimal m0).length : Int) + e0 - ((decimal m0).length : Int)).toNat '0') rest
          (by simp [hne])
          (by
            intro c hc
            rcases List.mem_append.mp hc with h | h
            · exact hdig c h
            · rw [(List.mem_replicate.mp h).2]; decide)
          (by
            left
            obtain ⟨d, ds, he, _⟩ := decimal_spec m0
            rw [he] at hhead ⊢
            simpa using hhead) hr
        simp only [List.append_assoc] at this ⊢
        rw [this, digitsVal_append, digitsVal_zeros, hval, shortest_pow hpos h10]
        congr 2
        simp only [Prod.mk.injEq, true_and]
        omega

theorem shortest_idem (m : Nat) (e : Int) :
    shortest (shortest m e).1 (shortest m e).2 = shortest m e := by
  rcases Nat.eq_zero_or_pos m with h | h
  · subst h
    rw [shortest_zero]
    exact shortest_zero 0
  · obtain ⟨hp, h10, _, _⟩ := (shortest_spec m e).2 h
    exact shortest_canonical hp h10 _

theorem encodeFloat_canon (neg : Bool) (m : Nat) (e : Int) :
    encodeFloat neg m e = encodeFloat neg (shortest m e).1 (shortest m e).2 := by
  simp only [encodeFloat, shortest_idem]

theorem encodeFloat_neg (m : Nat) (e : Int) :
    encodeFloat true m e = '-' :: encodeFloat false m e := by
  simp only [encodeFloat, if_true, Bool.false_eq_true, if_false, List.nil_append]
  split_ifs <;> simp

theorem encodeFloat_zero (neg : Bool) (e : Int) :
    encodeFloat neg 0 e = (if neg then ['-'] else []) ++ ['0'] := by
  simp [encodeFloat, shortest_zero]

theorem parseUnsigned_encodeFloat (m : Nat) (e : Int) (rest : List Char)
    (hr : stops rest = true) :
    parseUnsigned (encodeFloat false m e ++ rest) = some (shortest m e, rest) := by
  rcases Nat.eq_zero_or_pos m with h | h
  · subst h
    rw [encodeFloat_zero, shortest_zero]
    have := parseUnsigned_int '0' [] rest (by decide) (by simp) (Or.inr rfl) hr
    simpa [digitsVal, shortest_zero] using this
  · obtain ⟨hp, h10, _, _⟩ := (shortest_spec m e).2 h
    rw [encodeFloat_canon]
    exact parseUnsigned_encodeFloat_canonical _ _ hp h10 rest hr

theorem parseUnsigned_head {s : List Char} {q : (Nat × Int) × List Char}
    (h : parseUnsigned s = some q) : ∃ c tl, s = c :: tl ∧ isDigit c = true := by
  cases s with
  | nil => simp [parseUnsigned, parseInt] at h
  | cons c tl =>
    cases hd : isDigit c with
    | true => exact ⟨c, tl, rfl, hd⟩
    | false => simp [parseUnsigned, parseInt, hd] at h

theorem encodeFloat_head (m : Nat) (e : Int) :
    ∃ c tl, encodeFloat false m e = c :: tl ∧ isDigit c = true := by
  have := parseUnsigned_encodeFloat m e [] rfl
  rw [List.append_nil] at this
  exact parseUnsigned_head this

/-- A number text that starts with a digit. -/
theorem parseValue_unsigned (fuel : Nat) (c : Char) (tl rest : List Char) (q : Nat × Int)
    (hd : isDigit c = true) (hp : parseUnsigned (c :: tl ++ rest) = some (q, rest)) :
    parseValue (fuel + 1) (c :: tl ++ rest) = some (.float false q.1 q.2, rest) := by
  have h0 := isDigit_ne hd '-' (by decide)
  have h1 := isDigit_ne hd '"' (by decide)
  have h2 := isDigit_ne hd '[' (by decide)
  have h3 := isDigit_ne hd '{' (by decide)
  have h4 := isDigit_ne hd 'n' (by decide)
  have h5 := isDigit_ne hd 't' (by decide)
  have h6 := isDigit_ne hd 'f' (by decide)
  simp only [List.cons_append] at hp
  simp only [List.cons_append, parseValue, skipWs, isDigit_not_ws hd]
  simp [h0, h1, h2, h3, h4, h5, h6, hp, parseNumber]

/-- A number text that starts with the minus sign. -/
theorem parseValue_signed (fuel : Nat) (body rest : List Char) (q : Nat × Int)
    (hp : parseUnsigned (body ++ rest) = some (q, rest)) :
    parseValue (fuel + 1) ('-' :: body ++ rest) = some (.float true q.1 q.2, rest) := by
  simp only [List.cons_append, parseValue, skipWs]
  simp [isWs, hp, parseNumber]

theorem parseValue_float (fuel : Nat) (neg : Bool) (m : Nat) (e : Int) (rest : List Char)
    (hr : stops rest = true) :
    parseValue (fuel + 1) (encodeFloat neg m e ++ rest)
      = some (readBack (.float neg m e), rest) := by
  have hp := parseUnsigned_encodeFloat m e rest hr
  cases neg with
  | true =>
    rw [encodeFloat_neg]
    exact parseValue_signed fuel _ rest _ hp
  | false =>
    obtain ⟨c, tl, he, hd⟩ := encodeFloat_head m e
    rw [he] at hp ⊢
    exact parseValue_unsigned fuel c tl rest _ hd hp

theorem parseUnsigned_decimal (k : Nat) (rest : List Char) (hr : stops rest = true) :
    parseUnsigned (decimal k ++ rest) = some (shortest k 0, rest) := by
  obtain ⟨d, ds, he, hd, hds, hnz, hz, _⟩ := decimal_spec k
  have hv : digitsVal 0 (decimal k) = k := by simpa using digitsVal_decimal 0 k
  rw [he] at hv ⊢
  have := parseUnsigned_int d ds rest hd hds
    (by
      rcases Nat.eq_zero_or_pos k with h | h
      · exact Or.inr (hz h).2
      · exact Or.inl (hnz h)) hr
  rw [this, hv]

theorem parseValue_num (fuel : Nat) (n : Int) (rest : List Char) (hr : stops rest = true) :
    parseValue (fuel + 1) (encodeInt n ++ rest) = some (readBack (.num n), rest) := by
  cases n with
  | ofNat k =>
    have hp := parseUnsigned_decimal k rest hr
    obtain ⟨d, ds, he, hd, _⟩ := decimal_spec k
    simp only [encodeInt]
    rw [he] at hp ⊢
    have := parseValue_unsigned fuel d ds rest _ hd hp
    rw [this]
    simp [readBack]
  | negSucc k =>
    have hp := parseUnsigned_decimal (k + 1) rest hr
    have := parseValue_signed fuel _ rest _ hp
    simp only [encodeInt]
    rw [this]
    simp [readBack, Int.negSucc_lt_zero]

theorem parseValue_str (fuel : Nat) (s : String) (rest : List Char) :
    parseValue (fuel + 1) (encodeString s ++ rest) = some (.str s, rest) := by
  have hp := parseStr_escapeChars s.data rest
  simp only [encodeString, List.cons_append, List.append_assoc, List.nil_append, parseValue,
    skipWs]
  simp [isWs, hp]

theorem parseValue_null (fuel : Nat) (rest : List Char) :
    parseValue (fuel + 1) ('n' :: 'u' :: 'l' :: 'l' :: rest) = some (.null, rest) := by
  simp [parseValue, skipWs, isWs, expect, List.isPrefixOf]

theorem parseValue_true (fuel : Nat) (rest : List Char) :
    parseValue (fuel + 1) ('t' :: 'r' :: 'u' :: 'e' :: rest) = some (.bool true, rest) := by
  simp [parseValue, skipWs, isWs, expect, List.isPrefixOf]

theorem parseValue_false (fuel : Nat) (rest : List Char) :
    parseValue (fuel + 1) ('f' :: 'a' :: 'l' :: 's' :: 'e' :: rest)
      = some (.bool false, rest) := by
  simp [parseValue, skipWs, isWs, expect, List.isPrefixOf]

mutual
theorem Value.induct_value (P : Value → Prop) (hnull : P .null) (hbool : ∀ b, P (.bool b))
    (hnum : ∀ n, P (.num n)) (hfloat : ∀ neg m e, P (.float neg m e))
    (hstr : ∀ s, P (.str s)) (himap : P .imap)
    (hlist : ∀ xs : List Value, (∀ v ∈ xs, P v) → P (.list xs))
    (hmap : ∀ kvs : List (String × Value), (∀ p ∈ kvs, P p.2) → P (.map kvs)) :
    ∀ v, P v
  | .null => hnull
  | .bool b => hbool b
  | .num n => hnum n
  | .float neg m e => hfloat neg m e
  | .str s => hstr s
  | .imap => himap
  | .list xs => hlist xs (Value.induct_list P hnull hbool hnum hfloat hstr himap hlist hmap xs)
  | .map kvs => hmap kvs (Value.induct_entries P hnull hbool hnum hfloat hstr himap hlist hmap kvs)
theorem Value.induct_list (P : Value → Prop) (hnull : P .null) (hbool : ∀ b, P (.bool b))
    (hnum : ∀ n, P (.num n)) (hfloat : ∀ neg m e, P (.float neg m e))
    (hstr : ∀ s, P (.str s)) (himap : P .imap)
    (hlist : ∀ xs : List Value, (∀ v ∈ xs, P v) → P (.list xs))
    (hmap : ∀ kvs : List (String × Value), (∀ p ∈ kvs, P p.2) → P (.map kvs)) :
    ∀ xs : List Value, ∀ v ∈ xs, P v
  | [], _, h => by cases h
  | x :: xs, v, h => by
    rcases List.mem_cons.mp h with h | h
    · rw [h]; exact Value.induct_value P hnull hbool hnum hfloat hstr himap hlist hmap x
    · exact Value.induct_list P hnull hbool hnum hfloat hstr himap hlist hmap xs v h
theorem Value.induct_entries (P : Value → Prop) (hnull : P .null) (hbool : ∀ b, P (.bool b))
    (hnum : ∀ n, P (.num n)) (hfloat : ∀ neg m e, P (.float neg m e))
    (hstr : ∀ s, P (.str s)) (himap : P .imap)
    (hlist : ∀ xs : List Value, (∀ v ∈ xs, P v) → P (.list xs))
    (hmap : ∀ kvs : List (String × Value), (∀ p ∈ kvs, P p.2) → P (.map kvs)) :
    ∀ kvs : List (String × Value), ∀ p ∈ kvs, P p.2
  | [], _, h => by cases h
  | (k, x) :: kvs, p, h => by
    rcases List.mem_cons.mp h with h | h
    · rw [h]; exact Value.induct_value P hnull hbool hnum hfloat hstr himap hlist hmap x
    · exact Value.induct_entries P hnull hbool hnum hfloat hstr himap hlist hmap kvs p h
end

theorem marshalList_eq : ∀ (xs : List Value) (parts : List (List Char)),
    marshalList xs = some parts →
      parts = xs.map leafText ∧ ∀ v ∈ xs, (marshal v).isSome = true
  | [], parts, h => by
    simp only [marshalList, Option.some.injEq] at h
    subst h; simp
  | x :: xs, parts, h => by
    simp only [marshalList] at h
    cases hx : marshal x with
    | none => simp [hx] at h
    | some e =>
      cases hxs : marshalList xs with
      | none => simp [hx, hxs] at h
      | some es =>
        simp only [hx, hxs, Option.some.injEq] at h
        obtain ⟨he, hall⟩ := marshalList_eq xs es hxs
        subst h
        refine ⟨by simp [leafText, hx, he], ?_⟩
        intro v hv
        rcases List.mem_cons.mp hv with hv | hv
        · rw [hv, hx]; rfl
        · exact hall v hv

theorem marshalEntries_eq : ∀ (kvs : List (String × Value)) (parts : List (String × List Char)),
    marshalEntries kvs = some parts →
      parts = kvs.map (fun p => (p.1, leafText p.2)) ∧ ∀ p ∈ kvs, (marshal p.2).isSome = true
  | [], parts, h => by
    simp only [marshalEntries, Option.some.injEq] at h
    subst h; simp
  | (k, x) :: kvs, parts, h => by
    simp only [marshalEntries] at h
    cases hx : marshal x with
    | none => simp [hx] at h
    | some e =>
      cases hxs : marshalEntries kvs with
      | none => simp [hx, hxs] at h
      | some es =>
        simp only [hx, hxs, Option.some.injEq] at h
        obtain ⟨he, hall⟩ := marshalEntries_eq kvs es hxs
        subst h
        refine ⟨by simp [leafText, hx, he], ?_⟩
        intro p hp
        rcases List.mem_cons.mp hp with hp | hp
        · rw [hp]; simp [hx]
        · exact hall p hp

theorem insertEntry_map {α β : Type} (f : α → β) (k : String) (a : α) (l : List (String × α)) :
    insertEntry k (f a) (l.map fun p => (p.1, f p.2))
      = (insertEntry k a l).map fun p => (p.1, f p.2) := by
  induction l with
  | nil => rfl
  | cons x xs ih =>
    obtain ⟨k', a'⟩ := x
    simp only [List.map_cons, insertEntry]
    split_ifs
    · rfl
    · simp [ih]

theorem sortEntries_map {α β : Type} (f : α → β) (l : List (String × α)) :
    sortEntries (l.map fun p => (p.1, f p.2)) = (sortEntries l).map fun p => (p.1, f p.2) := by
  induction l with
  | nil => rfl
  | cons x xs ih =>
    obtain ⟨k, a⟩ := x
    simp only [List.map_cons, sortEntries, ih, insertEntry_map]

theorem insertEntry_perm {α : Type} (k : String) (a : α) (l : List (String × α)) :
    (insertEntry k a l).Perm ((k, a) :: l) := by
  induction l with
  | nil => exact List.Perm.refl _
  | cons x xs ih =>
    obtain ⟨k', a'⟩ := x
    simp only [insertEntry]
    split_ifs
    · exact List.Perm.refl _
    · exact (List.Perm.cons _ ih).trans (List.Perm.swap _ _ _)

theorem sortEntries_perm {α : Type} (l : List (String × α)) : (sortEntries l).Perm l := by
  induction l with
  | nil => exact List.Perm.refl _
  | cons x xs ih =>
    obtain ⟨k, a⟩ := x
    simp only [sortEntries]
    exact (insertEntry_perm k a _).trans (List.Perm.cons _ ih)

theorem sizeEntries_perm {l l' : List (String × Value)} (h : l.Perm l') :
    sizeEntries l = sizeEntries l' := by
  induction h with
  | nil => rfl
  | cons x _ ih => obtain ⟨k, v⟩ := x; simp only [sizeEntries, ih]
  | swap x y l =>
    obtain ⟨k, v⟩ := x
    obtain ⟨k', v'⟩ := y
    simp only [sizeEntries]; omega
  | trans _ _ ih₁ ih₂ => exact ih₁.trans ih₂

theorem readBackEntries_eq (kvs : List (String × Value)) :
    readBackEntries kvs = kvs.map fun p => (p.1, readBack p.2) := by
  induction kvs with
  | nil => rfl
  | cons x xs ih => obtain ⟨k, v⟩ := x; simp [readBackEntries, ih]

theorem readBackList_eq (xs : List Value) : readBackList xs = xs.map readBack := by
  induction xs with
  | nil => rfl
  | cons x xs ih => simp [readBackList, ih]

theorem leafText_head (v : Value) (h : (marshal v).isSome = true) :
    ∃ c cs, leafText v = c :: cs ∧ isWs c = false ∧ c ≠ ']' ∧ c ≠ '}' := by
  cases v with
  | null => exact ⟨'n', _, rfl, by decide, by decide, by decide⟩
  | bool b => cases b <;> exact ⟨_, _, rfl, by decide, by decide, by decide⟩
  | num n =>
    cases n with
    | ofNat m =>
      obtain ⟨d, ds, he, hd, _⟩ := decimal_spec m
      refine ⟨d, ds, ?_, isDigit_not_ws hd, isDigit_ne hd _ (by decide),
        isDigit_ne hd _ (by decide)⟩
      simp [leafText, marshal, encodeInt, he]
    | negSucc m => exact ⟨'-', _, rfl, by decide, by decide, by decide⟩
  | float neg m e =>
    cases neg with
    | true =>
      refine ⟨'-', encodeFloat false m e, ?_, by decide, by decide, by decide⟩
      simp [leafText, marshal, encodeFloat_neg]
    | false =>
      obtain ⟨d, ds, he, hd⟩ := encodeFloat_head m e
      refine ⟨d, ds, ?_, isDigit_not_ws hd, isDigit_ne hd _ (by decide),
        isDigit_ne hd _ (by decide)⟩
      simp [leafText, marshal, he]
  | str s => exact ⟨'"', _, rfl, by decide, by decide, by decide⟩
  | list xs =>
    obtain ⟨e, he⟩ := Option.isSome_iff_exists.mp h
    cases hx : marshalList xs with
    | none => simp [marshal, hx] at he
    | some parts =>
      exact ⟨'[', _, by simp [leafText, marshal, hx]; rfl, by decide, by decide, by decide⟩
  | map kvs =>
    obtain ⟨e, he⟩ := Option.isSome_iff_exists.mp h
    cases hx : marshalEntries kvs with
    | none => simp [marshal, hx] at he
    | some parts =>
      exact ⟨'{', _, by simp [leafText, marshal, hx]; rfl, by decide, by decide, by decide⟩
  | imap => simp [marshal] at h

theorem skipWs_cons {c : Char} (h : isWs c = false) (cs : List Char) :
    skipWs (c :: cs) = c :: cs := by
  simp [skipWs, h]

theorem parseElems_ok : ∀ (xs : List Value), xs ≠ [] →
    (∀ v ∈ xs, (marshal v).isSome = true) → (∀ v ∈ xs, ParsesBack v) →
    ∀ fuel, sizeList xs ≤ fuel → ∀ rest,
      parseElems fuel (commaJoin (xs.map leafText) ++ ']' :: rest)
        = some (readBackList xs, rest)
  | [], h, _, _, _, _, _ => absurd rfl h
  | v :: vs, _, hs, hg, fuel, hf, rest => by
    cases fuel with
    | zero => simp [sizeList] at hf
    | succ f =>
      simp only [sizeList] at hf
      have hv := hg v (List.mem_cons_self _ _) (hs v (List.mem_cons_self _ _)) f (by omega)
      cases vs with
      | nil =>
        have := hv (']' :: rest) rfl
        simp only [List.map_cons, List.map_nil, commaJoin, parseElems, this]
        simp [skipWs, isWs, readBackList]
      | cons w ws =>
        have := hv (',' :: (commaJoin ((w :: ws).map leafText) ++ ']' :: rest)) rfl
        have ih := parseElems_ok (w :: ws) (by simp)
          (fun x hx => hs x (List.mem_cons_of_mem _ hx))
          (fun x hx => hg x (List.mem_cons_of_mem _ hx)) f (by omega) rest
        simp only [List.map_cons, commaJoin, List.append_assoc, List.cons_append,
          parseElems] at this ih ⊢
        rw [this]
        simp only [skipWs]
        simp [isWs, ih, readBackList]

theorem parseMembers_ok : ∀ (M : List (String × Value)), M ≠ [] →
    (∀ p ∈ M, (marshal p.2).isSome = true) → (∀ p ∈ M, ParsesBack p.2) →
    ∀ fuel, sizeEntries M ≤ fuel → ∀ rest,
      parseMembers fuel
          (commaJoin (M.map fun p => encodeString p.1 ++ ':' :: leafText p.2) ++ '}' :: rest)
        = some (M.map (fun p => (p.1, readBack p.2)), rest)
  | [], h, _, _, _, _, _ => absurd rfl h
  | (k, v) :: vs, _, hs, hg, fuel, hf, rest => by
    cases fuel with
    | zero => simp [sizeEntries] at hf
    | succ f =>
      simp only [sizeEntries] at hf
      have hv := hg (k, v) (List.mem_cons_self _ _) (hs (k, v) (List.mem_cons_self _ _)) f
        (by show size v ≤ f; omega)
      cases vs with
      | nil =>
        have := hv ('}' :: rest) rfl
        have hk := parseStr_escapeChars k.data (':' :: (leafText v ++ '}' :: rest))
        simp only [List.map_cons, List.map_nil, commaJoin, encodeString, List.cons_append,
          List.append_assoc, List.nil_append, parseMembers, skipWs] at this hk ⊢
        simp [isWs, hk, skipWs, this]
      | cons w ws =>
        have := hv (',' :: (commaJoin ((w :: ws).map
          fun p => encodeString p.1 ++ ':' :: leafText p.2) ++ '}' :: rest)) rfl
        have ih := parseMembers_ok (w :: ws) (by simp)
          (fun x hx => hs x (List.mem_cons_of_mem _ hx))
          (fun x hx => hg x (List.mem_cons_of_mem _ hx)) f (by omega) rest
        have hk := parseStr_escapeChars k.data (':' :: (leafText v ++ ',' ::
          (commaJoin ((w :: ws).map fun p => encodeString p.1 ++ ':' :: leafText p.2)
            ++ '}' :: rest)))
        simp only [List.map_cons, commaJoin, encodeString, List.cons_append,
          List.append_assoc, List.nil_append, parseMembers, skipWs] at this ih hk ⊢
        simp [isWs, hk, skipWs, this, ih]

theorem leafText_list (xs : List Value) (h : (marshal (.list xs)).isSome = true) :
    leafText (.list xs) = '[' :: (commaJoin (xs.map leafText) ++ [']']) ∧
      ∀ v ∈ xs, (marshal v).isSome = true := by
  cases hx : marshalList xs with
  | none => simp [marshal, hx] at h
  | some parts =>
    obtain ⟨hp, hall⟩ := marshalList_eq xs parts hx
    exact ⟨by simp [leafText, marshal, hx, hp], hall⟩

theorem leafText_map (kvs : List (String × Value)) (h : (marshal (.map kvs)).isSome = true) :
    leafText (.map kvs) = '{' :: (commaJoin ((sortEntries kvs).map
        fun p => encodeString p.1 ++ ':' :: leafText p.2) ++ ['}']) ∧
      ∀ p ∈ kvs, (marshal p.2).isSome = true := by
  cases hx : marshalEntries kvs with
  | none => simp [marshal, hx] at h
  | some parts =>
    obtain ⟨hp, hall⟩ := marshalEntries_eq kvs parts hx
    refine ⟨?_, hall⟩
    have e : marshal (.map kvs) = some ('{' :: (commaJoin ((sortEntries parts).map
        fun p => encodeString p.1 ++ ':' :: p.2) ++ ['}'])) := by
      simp [marshal, hx]
    rw [leafText, e, Option.getD_some, hp, sortEntries_map leafText kvs, List.map_map]
    rfl

theorem commaJoin_head {e : List Char} {c : Char} {cs : List Char} (he : e = c :: cs)
    (es : List (List Char)) : ∃ tail, commaJoin (e :: es) = c :: tail := by
  subst he
  cases es with
  | nil => exact ⟨cs, rfl⟩
  | cons x xs => exact ⟨_, rfl⟩

theorem parsesBack_all : ∀ v, ParsesBack v := by
  apply Value.induct_value
  · intro _ fuel hf rest _
    cases fuel with
    | zero => simp [size] at hf
    | succ f => exact parseValue_null f rest
  · intro b _ fuel hf rest _
    cases fuel with
    | zero => simp [size] at hf
    | succ f => cases b
                · exact parseValue_false f rest
                · exact parseValue_true f rest
  · intro n _ fuel hf rest hr
    cases fuel with
    | zero => simp [size] at hf
    | succ f => exact parseValue_num f n rest hr
  · intro neg m e _ fuel hf rest hr
    cases fuel with
    | zero => simp [size] at hf
    | succ f => exact parseValue_float f neg m e rest hr
  · intro s _ fuel hf rest _
    cases fuel with
    | zero => simp [size] at hf
    | succ f => exact parseValue_str f s rest
  · intro h
    simp [marshal] at h
  · intro xs ih h fuel hf rest _
    obtain ⟨ht, hall⟩ := leafText_list xs h
    cases fuel with
    | zero => simp [size] at hf
    | succ f =>
      simp only [size] at hf
      rw [ht]
      cases xs with
      | nil =>
        simp [commaJoin, parseValue, skipWs, isWs, readBack, readBackList]
      | cons x xs' =>
        obtain ⟨c, cs, hc, hw, hb, _⟩ := leafText_head x (hall x (List.mem_cons_self _ _))
        obtain ⟨tail, htail⟩ := commaJoin_head hc ((xs').map leafText)
        have hp := parseElems_ok (x :: xs') (by simp) hall ih f (by omega) rest
        simp only [List.map_cons] at hp htail ⊢
        rw [htail] at hp ⊢
        simp only [List.cons_append, List.append_assoc, List.nil_append] at hp ⊢
        rw [parseValue, skipWs_cons (by decide)]
        simp [skipWs_cons hw, hb, hp, readBack]
  · intro kvs ih h fuel hf rest _
    obtain ⟨ht, hall⟩ := leafText_map kvs h
    have hperm := sortEntries_perm kvs
    have hall' : ∀ p ∈ sortEntries kvs, (marshal p.2).isSome = true :=
      fun p hp => hall p (hperm.mem_iff.mp hp)
    have ih' : ∀ p ∈ sortEntries kvs, ParsesBack p.2 :=
      fun p hp => ih p (hperm.mem_iff.mp hp)
    have hsz : sizeEntries (sortEntries kvs) = sizeEntries kvs := sizeEntries_perm hperm
    have hres : readBack (.map kvs)
        = .map ((sortEntries kvs).map fun p => (p.1, readBack p.2)) := by
      simp only [readBack, readBackEntries_eq, sortEntries_map readBack kvs]
    cases fuel with
    | zero => simp [size] at hf
    | succ f =>
      simp only [size] at hf
      rw [ht, hres]
      cases hM : sortEntries kvs with
      | nil =>
        simp [commaJoin, parseValue, skipWs, isWs]
      | cons x M' =>
        rw [hM] at hall' ih' hsz
        have hp := parseMembers_ok (x :: M') (by simp) hall' ih' f (by omega) rest
        obtain ⟨tail, htail⟩ := commaJoin_head
          (show encodeString x.1 ++ ':' :: leafText x.2 = '"' :: _ from rfl)
          (M'.map fun p => encodeString p.1 ++ ':' :: leafText p.2)
        simp only [List.map_cons] at hp htail ⊢
        rw [htail] at hp ⊢
        simp only [List.cons_append, List.append_assoc, List.nil_append] at hp ⊢
        rw [parseValue, skipWs_cons (by decide)]
        simp [skipWs_cons (show isWs '"' = false by decide), hp]

theorem commaJoin_length_cons (e : List Char) (es : List (List Char)) :
    e.length + (commaJoin es).length ≤ (commaJoin (e :: es)).length := by
  cases es with
  | nil => simp [commaJoin]
  | cons x xs => simp only [commaJoin, List.length_append, List.length_cons]; omega

theorem sizeList_le : ∀ xs : List Value, (∀ v ∈ xs, size v ≤ (leafText v).length) →
    sizeList xs ≤ (commaJoin (xs.map leafText)).length + 1
  | [], _ => by simp [sizeList]
  | v :: vs, h => by
    have hv := h v (List.mem_cons_self _ _)
    have ih := sizeList_le vs fun x hx => h x (List.mem_cons_of_mem _ hx)
    cases vs with
    | nil => simp only [sizeList, List.map_cons, List.map_nil, commaJoin]; omega
    | cons w ws =>
      simp only [sizeList, List.map_cons, commaJoin, List.length_append, List.length_cons]
        at ih ⊢
      omega

theorem sizeEntries_le : ∀ M : List (String × Value),
    (∀ p ∈ M, size p.2 ≤ (leafText p.2).length) →
    sizeEntries M
      ≤ (commaJoin (M.map fun p => encodeString p.1 ++ ':' :: leafText p.2)).length + 1
  | [], _ => by simp [sizeEntries]
  | (k, v) :: vs, h => by
    have hv : size v ≤ (leafText v).length := h (k, v) (List.mem_cons_self _ _)
    have ih := sizeEntries_le vs fun x hx => h x (List.mem_cons_of_mem _ hx)
    cases vs with
    | nil =>
      simp only [sizeEntries, List.map_cons, List.map_nil, commaJoin, List.length_append,
        List.length_cons]
      omega
    | cons w ws =>
      simp only [sizeEntries, List.map_cons, commaJoin, List.length_append, List.length_cons]
        at ih ⊢
      omega

theorem size_le_length : ∀ v : Value, (marshal v).isSome = true →
    size v ≤ (leafText v).length := by
  apply Value.induct_value
  · intro _; decide
  · intro b _; cases b <;> decide
  · intro n h
    obtain ⟨c, cs, hc, _⟩ := leafText_head (.num n) h
    rw [hc]; simp [size]
  · intro neg m e h
    obtain ⟨c, cs, hc, _⟩ := leafText_head (.float neg m e) h
    rw [hc]; simp [size]
  · intro s h
    obtain ⟨c, cs, hc, _⟩ := leafText_head (.str s) h
    rw [hc]; simp [size]
  · intro h; simp [marshal] at h
  · intro xs ih h
    obtain ⟨ht, hall⟩ := leafText_list xs h
    have := sizeList_le xs fun v hv => ih v hv (hall v hv)
    rw [ht]
    simp only [size, List.length_cons, List.length_append, List.length_nil]
    omega
  · intro kvs ih h
    obtain ⟨ht, hall⟩ := leafText_map kvs h
    have hperm := sortEntries_perm kvs
    have := sizeEntries_le (sortEntries kvs) fun p hp =>
      ih p (hperm.mem_iff.mp hp) (hall p (hperm.mem_iff.mp hp))
    rw [sizeEntries_perm hperm] at this
    rw [ht]
    simp only [size, List.length_cons, List.length_append, List.length_nil]
    omega

/-- Decoding the JSON text of a value gives the value as read back. -/
theorem jsonDecode_leafText (v : Value) (h : (marshal v).isSome = true) :
    jsonDecode (leafText v) = some (readBack v) := by
  have hp := parsesBack_all v h ((leafText v).length + 1)
    (by have := size_le_length v h; omega) [] rfl
  rw [List.append_nil] at hp
  simp [jsonDecode, hp, skipWs]

/-- Moving zeros from the digits into the exponent keeps the number. -/
theorem shortest_value (m : Nat) (e : Int) :
    (m : ℚ) * (10 : ℚ) ^ e = ((shortest m e).1 : ℚ) * (10 : ℚ) ^ (shortest m e).2 := by
  rcases Nat.eq_zero_or_pos m with h | h
  · subst h
    rw [shortest_zero]
    simp
  · obtain ⟨_, _, hle, hm⟩ := (shortest_spec m e).2 h
    generalize (shortest m e).1 = m0 at hm
    generalize (shortest m e).2 = e0 at hm hle
    have he : e0 = e + ((e0 - e).toNat : Int) := by
      have := Int.toNat_of_nonneg (show 0 ≤ e0 - e by omega)
      omega
    have h10 : (10 : ℚ) ≠ 0 := by norm_num
    rw [he, zpow_add₀ h10, zpow_natCast]
    have hc : (m : ℚ) = (m0 : ℚ) * (10 : ℚ) ^ (e0 - e).toNat := by
      have := congrArg (fun x : Nat => (x : ℚ)) hm
      simp only at this
      rw [this]
      push_cast
      simp
    rw [hc]
    ring

theorem sameList_readBack : ∀ xs : List Value, (∀ v ∈ xs, SameValue v (readBack v)) →
    SameList xs (readBackList xs)
  | [], _ => SameList.nil
  | x :: xs, h =>
    SameList.cons (h x (List.mem_cons_self _ _))
      (sameList_readBack xs fun v hv => h v (List.mem_cons_of_mem _ hv))

theorem sameEntries_readBack : ∀ kvs : List (String × Value),
    (∀ p ∈ kvs, SameValue p.2 (readBack p.2)) → SameEntries kvs (readBackEntries kvs)
  | [], _ => SameEntries.nil
  | (k, v) :: kvs, h =>
    SameEntries.cons k (h (k, v) (List.mem_cons_self _ _))
      (sameEntries_readBack kvs fun p hp => h p (List.mem_cons_of_mem _ hp))

/-- What the parser builds from the text of a value is equal to the value. -/
theorem sameValue_readBack : ∀ v : Value, SameValue v (readBack v) := by
  apply Value.induct_value
  · exact SameValue.null
  · intro b; exact SameValue.bool b
  · intro n
    have := shortest_value n.natAbs 0
    simp only [zpow_zero, mul_one] at this
    exact SameValue.int n _ _ this
  · intro neg m e
    exact SameValue.float neg m e _ _ (shortest_value m e)
  · intro s; exact SameValue.str s
  · exact SameValue.imap
  · intro xs ih
    exact SameValue.list (sameList_readBack xs ih)
  · intro kvs ih
    exact SameValue.map (sameEntries_readBack kvs ih) (sortEntries_perm _).symm

theorem base64Text_leafPair (key : String) (text : List Char) :
    base64Text (leafPair key text).Value = some text := by
  simp only [base64Text, leafPair]
  rw [b64Decode_encode _ (utf8Bytes_lt text)]
  exact utf8Decode_encode text

theorem hexDigit_ne_newline : ∀ m, m < 16 → hexDigit m ≠ '\n' := by decide

theorem escapeChar_no_newline (c : Char) : ∀ x ∈ escapeChar c, x ≠ '\n' := by
  intro x hx
  unfold escapeChar at hx
  split_ifs at hx with h1 h2 h3 h4 h5 h6 h7 h8
  · simp at hx; rcases hx with h | h <;> subst h <;> decide
  · simp at hx; subst hx; decide
  · simp at hx; rcases hx with h | h <;> subst h <;> decide
  · simp at hx; rcases hx with h | h <;> subst h <;> decide
  · simp at hx; rcases hx with h | h <;> subst h <;> decide
  · simp only [List.mem_cons, List.mem_singleton, List.not_mem_nil, or_false] at hx
    rcases hx with h | h | h | h | h | h
    · subst h; decide
    · subst h; decide
    · subst h; decide
    · subst h; decide
    · subst h; exact hexDigit_ne_newline _ (by omega)
    · subst h; exact hexDigit_ne_newline _ (by omega)
  · simp only [List.mem_cons, List.mem_singleton, List.not_mem_nil, or_false] at hx
    rcases hx with h | h | h | h | h | h <;> subst h <;> decide
  · simp only [List.mem_cons, List.mem_singleton, List.not_mem_nil, or_false] at hx
    rcases hx with h | h | h | h | h | h <;> subst h <;> decide
  · simp at hx; subst hx; exact h3

theorem escapeChars_no_newline : ∀ cs : List Char, ∀ x ∈ escapeChars cs, x ≠ '\n'
  | [], x, hx => by simp [escapeChars] at hx
  | c :: cs, x, hx => by
    simp only [escapeChars, List.mem_append] at hx
    rcases hx with hx | hx
    · exact escapeChar_no_newline c x hx
    · exact escapeChars_no_newline cs x hx

theorem encodeString_no_newline (s : String) : ∀ x ∈ encodeString s, x ≠ '\n' := by
  intro x hx
  simp only [encodeString, List.mem_cons, List.mem_append, List.mem_singleton,
    List.not_mem_nil, or_false] at hx
  rcases hx with h | h | h
  · subst h; decide
  · exact escapeChars_no_newline _ x h
  · subst h; decide

theorem digit_ne_newline {c : Char} (h : isDigit c = true) : c ≠ '\n' :=
  isDigit_ne h _ (by decide)

theorem decimalAux_digits : ∀ (fuel n : Nat) (acc : List Char),
    (∀ c ∈ acc, isDigit c = true) → ∀ c ∈ decimalAux fuel n acc, isDigit c = true
  | 0, _, acc, h => by simpa [decimalAux] using h
  | fuel + 1, n, acc, h => by
    simp only [decimalAux]
    split_ifs with hn
    · intro c hc
      rcases List.mem_cons.mp hc with hc | hc
      · rw [hc]; exact digit_isDigit n hn
      · exact h c hc
    · apply decimalAux_digits fuel
      intro c hc
      rcases List.mem_cons.mp hc with hc | hc
      · rw [hc]; exact digit_isDigit _ (Nat.mod_lt _ (by decide))
      · exact h c hc

theorem encodeInt_no_newline (n : Int) : ∀ x ∈ encodeInt n, x ≠ '\n' := by
  intro x hx
  cases n with
  | ofNat m =>
    exact digit_ne_newline (decimalAux_digits _ _ [] (by simp) x hx)
  | negSucc m =>
    simp only [encodeInt, List.mem_cons] at hx
    rcases hx with h | h
    · subst h; decide
    · exact digit_ne_newline (decimalAux_digits _ _ [] (by simp) x h)

theorem encodeFloat_no_newline (neg : Bool) (m : Nat) (e : Int) :
    ∀ x ∈ encodeFloat neg m e, x ≠ '\n' := by
  have hd : ∀ n, ∀ x ∈ decimal n, x ≠ '\n' := fun n x hx =>
    digit_ne_newline (decimal_digits n x hx)
  have ht : ∀ n k, ∀ x ∈ (decimal n).take k, x ≠ '\n' := fun n k x hx =>
    hd n x (List.mem_of_mem_take hx)
  have hdr : ∀ n k, ∀ x ∈ (decimal n).drop k, x ≠ '\n' := fun n k x hx =>
    hd n x (List.mem_of_mem_drop hx)
  have hz : ∀ k, ∀ x ∈ List.replicate k '0', x ≠ '\n' := by
    intro k x hx
    rw [(List.mem_replicate.mp hx).2]
    decide
  have hs : ∀ x ∈ (if neg = true then ['-'] else []), x ≠ '\n' := by
    intro x hx
    cases neg
    · simp at hx
    · simp at hx; rw [hx]; decide
  have c1 : '0' ≠ '\n' := by decide
  have c2 : '.' ≠ '\n' := by decide
  have c3 : 'e' ≠ '\n' := by decide
  have c4 : '-' ≠ '\n' := by decide
  have c5 : '+' ≠ '\n' := by decide
  unfold encodeFloat
  simp only []
  split_ifs <;>
    simp only [List.forall_mem_append, List.forall_mem_cons, List.forall_mem_singleton,
      List.not_mem_nil, false_implies, implies_true, and_true, true_and] <;>
    (repeat' constructor) <;>
    first
      | exact hd _ | exact ht _ _ | exact hdr _ _ | exact hz _ | exact hs
      | exact c1 | exact c2 | exact c3 | exact c4 | exact c5

theorem commaJoin_mem : ∀ (parts : List (List Char)) (x : Char), x ∈ commaJoin parts →
    x = ',' ∨ ∃ p ∈ parts, x ∈ p
  | [], x, h => by simp [commaJoin] at h
  | [p], x, h => Or.inr ⟨p, by simp, by simpa [commaJoin] using h⟩
  | p :: q :: rest, x, h => by
    simp only [commaJoin, List.mem_append, List.mem_cons] at h
    rcases h with h | h | h
    · exact Or.inr ⟨p, by simp, h⟩
    · exact Or.inl h
    · rcases commaJoin_mem (q :: rest) x h with h' | ⟨p', hp', hx⟩
      · exact Or.inl h'
      · exact Or.inr ⟨p', List.mem_cons_of_mem _ hp', hx⟩

theorem leafText_no_newline : ∀ v : Value, (marshal v).isSome = true →
    ∀ x ∈ leafText v, x ≠ '\n' := by
  apply Value.induct_value
  · intro _ x hx
    simp only [leafText, marshal, Option.getD_some, List.mem_cons, List.mem_singleton,
      List.not_mem_nil, or_false] at hx
    rcases hx with h | h | h | h <;> subst h <;> decide
  · intro b _ x hx
    cases b
    · simp only [leafText, marshal, Option.getD_some, List.mem_cons, List.mem_singleton,
        List.not_mem_nil, or_false] at hx
      rcases hx with h | h | h | h | h <;> subst h <;> decide
    · simp only [leafText, marshal, Option.getD_some, List.mem_cons, List.mem_singleton,
        List.not_mem_nil, or_false] at hx
      rcases hx with h | h | h | h <;> subst h <;> decide
  · intro n _ x hx
    exact encodeInt_no_newline n x hx
  · intro neg m e _ x hx
    exact encodeFloat_no_newline neg m e x hx
  · intro s _ x hx
    exact encodeString_no_newline s x hx
  · intro h; simp [marshal] at h
  · intro xs ih h x hx
    obtain ⟨ht, hall⟩ := leafText_list xs h
    rw [ht] at hx
    simp only [List.mem_cons, List.mem_append, List.mem_singleton, List.not_mem_nil,
      or_false] at hx
    rcases hx with h1 | h1 | h1
    · subst h1; decide
    · rcases commaJoin_mem _ x h1 with h2 | ⟨p, hp, hxp⟩
      · subst h2; decide
      · obtain ⟨v, hv, rfl⟩ := List.mem_map.mp hp
        exact ih v hv (hall v hv) x hxp
    · subst h1; decide
  · intro kvs ih h x hx
    obtain ⟨ht, hall⟩ := leafText_map kvs h
    have hperm := sortEntries_perm kvs
    rw [ht] at hx
    simp only [List.mem_cons, List.mem_append, List.mem_singleton, List.not_mem_nil,
      or_false] at hx
    rcases hx with h1 | h1 | h1
    · subst h1; decide
    · rcases commaJoin_mem _ x h1 with h2 | ⟨p, hp, hxp⟩
      · subst h2; decide
      · obtain ⟨e, he, rfl⟩ := List.mem_map.mp hp
        have hmem := hperm.mem_iff.mp he
        simp only [List.mem_append, List.mem_cons] at hxp
        rcases hxp with h3 | h3 | h3
        · exact encodeString_no_newline _ x h3
        · subst h3; decide
        · exact ih e hmem (hall e hmem) x h3
    · subst h1; decide

theorem encodable_isSome {v : Value} (h : encodable v = true) : (marshal v).isSome = true := by
  cases v <;> first | exact h | (simp [encodable] at h)

theorem walkable_mem {T : Tree} (h : walkable T = true) :
    ∀ p ∈ leaves T, (marshal p.2).isSome = true := fun p hp =>
  encodable_isSome (List.all_eq_true.mp h p hp)

theorem escapeChar_non_ascii (c : Char) (h : 128 ≤ c.toNat) (h1 : c.toNat ≠ 0x2028)
    (h2 : c.toNat ≠ 0x2029) : escapeChar c = [c] := by
  have n1 : c ≠ '"' := by intro e; rw [e] at h; revert h; decide
  have n2 : c ≠ '\\' := by intro e; rw [e] at h; revert h; decide
  have n3 : c ≠ '\n' := by intro e; rw [e] at h; revert h; decide
  have n4 : c ≠ '\r' := by intro e; rw [e] at h; revert h; decide
  have n5 : c ≠ '\t' := by intro e; rw [e] at h; revert h; decide
  have n6 : ¬ c.toNat < 32 := by omega
  simp only [escapeChar, if_neg n1, if_neg n2, if_neg n3, if_neg n4, if_neg n5, if_neg n6,
    if_neg h1, if_neg h2]

/-- C3. For every pair `mapToKVPairs` emits, the value is the base64 form of a text, and
JSON-decoding that text gives a value equal to the leaf: the same literal or string, a number
of the same sign and value (integers and floats), a list with equal elements in the same
order, and for a map inside a list the same keys with equal values.  The text has no newline
in it, and for a string leaf it is the string between quotes with only the quote, the
backslash, control characters and U+2028/U+2029 escaped: `&`, `<`, `>` and the other
non-ASCII characters stand for themselves. -/
theorem kv_value_round_trip (ckv : List consulKVPair) (P : String) (T : Tree)
    (h : walkable T = true) :
    ∃ added, mapToKVPairs ckv P T = .ok (ckv ++ added) ∧
      List.Forall₂ (fun p kv =>
        ∃ text w, base64Text kv.Value = some text ∧ jsonDecode text = some w ∧
          SameValue p.2 w ∧ (∀ c ∈ text, c ≠ '\n') ∧
          (∀ s, p.2 = .str s → text = '"' :: (escapeChars s.data ++ ['"'])))
        (leaves T) added ∧
      escapeChar '&' = ['&'] ∧ escapeChar '<' = ['<'] ∧ escapeChar '>' = ['>'] ∧
      ∀ c : Char, 128 ≤ c.toNat → c.toNat ≠ 0x2028 → c.toNat ≠ 0x2029 → escapeChar c = [c] := by
  refine ⟨_, mapToKVPairs_ok ckv P T h, ?_, by decide, by decide, by decide,
    escapeChar_non_ascii⟩
  rw [List.forall₂_map_right_iff]
  apply List.forall₂_same.mpr
  intro p hp
  have hs := walkable_mem h p hp
  refine ⟨leafText p.2, readBack p.2, base64Text_leafPair _ _, jsonDecode_leafText p.2 hs,
    sameValue_readBack p.2, leafText_no_newline p.2 hs, ?_⟩
  intro s hs'
  rw [hs']; rfl

theorem kv_value_round_trip_witness :
    ∃ added, mapToKVPairs [] "svc"
        [("a", .map [("b", .num (-12)), ("c", .str "x&<>é\n"), ("d", .float false 15 (-1))]),
          ("l", .list [.bool true, .null, .map [("z", .num 1), ("y", .float true 1 21)]])]
          = .ok ([] ++ added) ∧
      List.Forall₂ (fun p kv =>
        ∃ text w, base64Text kv.Value = some text ∧ jsonDecode text = some w ∧
          SameValue p.2 w ∧ (∀ c ∈ text, c ≠ '\n') ∧
          (∀ s, p.2 = .str s → text = '"' :: (escapeChars s.data ++ ['"'])))
        (leaves [("a", .map [("b", .num (-12)), ("c", .str "x&<>é\n"),
            ("d", .float false 15 (-1))]),
          ("l", .list [.bool true, .null, .map [("z", .num 1), ("y", .float true 1 21)]])])
        added ∧
      escapeChar '&' = ['&'] ∧ escapeChar '<' = ['<'] ∧ escapeChar '>' = ['>'] ∧
      ∀ c : Char, 128 ≤ c.toNat → c.toNat ≠ 0x2028 → c.toNat ≠ 0x2029 → escapeChar c = [c] :=
  kv_value_round_trip [] "svc" _ (by decide)

/-! ## Reading the arguments of a directive back -/

theorem breakAt_pass (pat rest : List Char) (hne : pat ≠ []) :
    ∀ x : List Char, (∀ s, s ≠ [] → s <:+ x → pat.isPrefixOf (s ++ (pat ++ rest)) = false) →
      breakAt pat (x ++ (pat ++ rest)) = some (x, rest)
  | [], _ => by
    cases pat with
    | nil => exact absurd rfl hne
    | cons p ps =>
      have h1 : (p :: ps).isPrefixOf (p :: ps ++ rest) = true :=
        List.isPrefixOf_iff_prefix.mpr (List.prefix_append _ _)
      have h2 : (p :: ps ++ rest).drop (p :: ps).length = rest := List.drop_left _ _
      simp only [List.nil_append, List.cons_append] at h1 h2 ⊢
      simp only [breakAt, h1, if_true, h2]
  | a :: xs, h => by
    have h0 := h (a :: xs) (by simp) (List.suffix_refl _)
    have ih := breakAt_pass pat rest hne xs fun s hs hsuf =>
      h s hs (hsuf.trans (List.suffix_cons a xs))
    simp only [List.cons_append] at h0 ⊢
    simp [breakAt, h0, ih]

/-- No occurrence of the separator `}}} {{{` can begin inside a key and end in the separator
that follows it. -/
theorem separator_clear (key rest : List Char)
    (hocc : occurs ['}', '}', '}', ' ', '{', '{', '{'] key = false) :
    ∀ s, s ≠ [] → s <:+ key →
      List.isPrefixOf ['}', '}', '}', ' ', '{', '{', '{']
        (s ++ (['}', '}', '}', ' ', '{', '{', '{'] ++ rest)) = false := by
  apply clear_of_short hocc
  intro s hs _ hlen
  match s, hs, hlen with
  | [a], _, _ => simp [List.isPrefixOf]
  | [a, b], _, _ => simp [List.isPrefixOf]
  | [a, b, c], _, _ => simp [List.isPrefixOf]
  | [a, b, c, d], _, _ => simp [List.isPrefixOf]
  | [a, b, c, d, e], _, _ => simp [List.isPrefixOf]
  | [a, b, c, d, e, f], _, _ => simp [List.isPrefixOf]
  | _ :: _ :: _ :: _ :: _ :: _ :: _ :: _, _, h => simp at h; omega

theorem stripSuffix_append (suf x : List Char) : stripSuffix suf (x ++ suf) = some x := by
  have h1 : suf.isSuffixOf (x ++ suf) = true := by
    simp [List.isSuffixOf, List.isPrefixOf_iff_prefix]
  simp [stripSuffix, h1]

/-- Reading the arguments back from a directive gives the path and the default it was built
from, when the path does not contain the separator. -/
theorem directiveArgs_directive (key : String) (text : List Char)
    (hocc : occurs ['}', '}', '}', ' ', '{', '{', '{'] key.data = false) :
    directiveArgs (directive key text) = some (key, text) := by
  have hb := breakAt_pass ['}', '}', '}', ' ', '{', '{', '{'] (text ++ ['}', '}', '}', ' ', '}', '}'])
    (by simp) key.data (separator_clear key.data _ hocc)
  have hs := stripSuffix_append ['}', '}', '}', ' ', '}', '}'] text
  have l1 : ("\x7b\x7b keyOrDefault \x7b\x7b\x7b" : String).data
      = ['{', '{', ' ', 'k', 'e', 'y', 'O', 'r', 'D', 'e', 'f', 'a', 'u', 'l', 't', ' ', '{',
        '{', '{'] := rfl
  have l2 : ("\x7d\x7d\x7d \x7b\x7b\x7b" : String).data = ['}', '}', '}', ' ', '{', '{', '{'] :=
    rfl
  have l3 : ("\x7d\x7d\x7d \x7d\x7d" : String).data = ['}', '}', '}', ' ', '}', '}'] := rfl
  have he : expect ['{', '{', ' ', 'k', 'e', 'y', 'O', 'r', 'D', 'e', 'f', 'a', 'u', 'l', 't',
      ' ', '{', '{', '{'] (directive key text).data
      = some (key.data ++ (['}', '}', '}', ' ', '{', '{', '{']
          ++ (text ++ ['}', '}', '}', ' ', '}', '}']))) := by
    rw [directive_data]
    simp [expect, List.isPrefixOf]
  simp only [directiveArgs, l1, l2, l3, he, hb, hs]

/-- C7. The two traversals agree leaf by leaf.  On a tree whose leaves can be encoded both
complete, and the directive made for a leaf is the format filled with the key of the leaf's KV
pair and with the text its base64 value stands for; reading the two arguments back from the
directive gives that key and that text (for a key that does not contain the separator
`}}} {{{`, which no reading could tell from the one written by the format), and the text
JSON-decodes to a value equal to the leaf.  On any other tree both abort. -/
theorem templater_agrees_with_flattener (sets : List SetCall) (ckv : List consulKVPair)
    (P : String) (T : Tree) :
    (walkable T = true →
      ∃ calls pairs, updateValue sets P "" T = .ok (sets ++ calls) ∧
        mapToKVPairs ckv P T = .ok (ckv ++ pairs) ∧
        List.Forall₂ (fun c kv =>
            ∃ text, base64Text kv.Value = some text ∧
              c.value = "\x7b\x7b keyOrDefault \x7b\x7b\x7b" ++ kv.Key
                ++ "\x7d\x7d\x7d \x7b\x7b\x7b" ++ String.mk text ++ "\x7d\x7d\x7d \x7d\x7d" ∧
              (occurs ['}', '}', '}', ' ', '{', '{', '{'] kv.Key.data = false →
                directiveArgs c.value = some (kv.Key, text)))
          calls pairs ∧
        List.Forall₂ (fun p kv =>
            ∃ text w, base64Text kv.Value = some text ∧ jsonDecode text = some w ∧
              SameValue p.2 w)
          (leaves T) pairs) ∧
    (walkable T = false →
      (∃ e, updateValue sets P "" T = .error e) ∧ ∃ e, mapToKVPairs ckv P T = .error e) := by
  constructor
  · intro h
    refine ⟨_, _, updateValue_ok sets P "" T h, mapToKVPairs_ok ckv P T h, ?_, ?_⟩
    · rw [List.forall₂_map_left_iff, List.forall₂_map_right_iff]
      apply List.forall₂_same.mpr
      intro p _
      exact ⟨leafText p.2, base64Text_leafPair _ _, rfl,
        fun hocc => directiveArgs_directive _ _ hocc⟩
    · rw [List.forall₂_map_right_iff]
      apply List.forall₂_same.mpr
      intro p hp
      exact ⟨leafText p.2, readBack p.2, base64Text_leafPair _ _,
        jsonDecode_leafText p.2 (walkable_mem h p hp), sameValue_readBack p.2⟩
  · intro h
    exact ⟨updateValue_error sets P "" T h, mapToKVPairs_error ckv P T h⟩

theorem templater_agrees_with_flattener_witness :
    ∃ calls pairs, updateValue [] "svc" "" [("a", .map [("b", .num 1), ("c", .str "x")])]
        = .ok ([] ++ calls) ∧
      mapToKVPairs [] "svc" [("a", .map [("b", .num 1), ("c", .str "x")])]
        = .ok ([] ++ pairs) ∧
      List.Forall₂ (fun c kv =>
          ∃ text, base64Text kv.Value = some text ∧
            c.value = "\x7b\x7b keyOrDefault \x7b\x7b\x7b" ++ kv.Key
              ++ "\x7d\x7d\x7d \x7b\x7b\x7b" ++ String.mk text ++ "\x7d\x7d\x7d \x7d\x7d" ∧
            (occurs ['}', '}', '}', ' ', '{', '{', '{'] kv.Key.data = false →
              directiveArgs c.value = some (kv.Key, text)))
        calls pairs ∧
      List.Forall₂ (fun p kv =>
          ∃ text w, base64Text kv.Value = some text ∧ jsonDecode text = some w ∧
            SameValue p.2 w)
        (leaves [("a", .map [("b", .num 1), ("c", .str "x")])]) pairs :=
  (templater_agrees_with_flattener [] [] "svc"
    [("a", .map [("b", .num 1), ("c", .str "x")])]).1 (by decide)

end ConsulCfg
